import Mathlib

/-!
Verification development for the YouTube audio downloader
(`audio_downloader.py`).  The Python source is shallowly embedded below:
pure helpers become Lean functions over `List Char` / `String`, the
side-effecting download run becomes explicit state passing over an
environment that supplies the results of the external calls
(cookie extraction, format probing, the two transfer attempts).

Everything is executable (`decide` / `rfl` can evaluate the models on
concrete inputs).
-/

namespace AudioDL

/-! # Basic character and string helpers

Python string operations used by the source, modelled over ASCII where the
source only ever meets ASCII data (documented at each definition).
-/

/-- ASCII lower-casing of one character, the ASCII fragment of Python's
`str.lower()`.  The source applies `.lower()` to error messages, browser
names and URLs; the claims only concern ASCII keywords. -/
def lowerChar (c : Char) : Char :=
  if 'A' ≤ c ∧ c ≤ 'Z' then Char.ofNat (c.toNat + 32) else c

/-- Python `s.lower()` on a character list (ASCII fragment). -/
def lowerL (s : List Char) : List Char := s.map lowerChar

/-- Does `needle` occur as a leading block of `hay`? -/
def startsAt : List Char → List Char → Bool
  | [], _ => true
  | _ :: _, [] => false
  | a :: as, b :: bs => a = b && startsAt as bs

/-- Python's `needle in haystack` substring test on character lists. -/
def containsSub (needle : List Char) : List Char → Bool
  | [] => needle.isEmpty
  | c :: rest => startsAt needle (c :: rest) || containsSub needle rest

/-- Python's `needle in haystack` on strings. -/
def containsStr (needle haystack : String) : Bool :=
  containsSub needle.data haystack.data

/-! # Python `int()` parsing

`int(s)` for a string: strips ASCII whitespace, allows one optional sign,
then decimal digits with single underscores strictly between digits.
(The source feeds it quality strings such as `"192"`; Unicode digits and
exotic whitespace are outside the model.) -/

/-- Python whitespace characters stripped by `int()` (ASCII fragment). -/
def isPySpace (c : Char) : Bool :=
  c = ' ' ∨ c = '\t' ∨ c = '\n' ∨ c = '\x0d' ∨ c = '\x0b' ∨ c = '\x0c'

/-- Digits-with-underscores tail: after a digit, either the end, another
digit, or an underscore followed by a digit group. -/
def digitsTail : List Char → Option Nat → Option Nat
  | [], acc => acc
  | '_' :: c :: rest, some acc =>
      if c.isDigit then digitsTail rest (some (acc * 10 + (c.toNat - 48)))
      else none
  | c :: rest, some acc =>
      if c.isDigit then digitsTail rest (some (acc * 10 + (c.toNat - 48)))
      else none
  | _, none => none

/-- Parse an unsigned decimal literal with Python's underscore rule. -/
def parseDigits : List Char → Option Nat
  | c :: rest => if c.isDigit then digitsTail rest (some (c.toNat - 48)) else none
  | [] => none

/-- Model of Python `int(s)` on a string (ASCII fragment): returns `none`
where CPython raises `ValueError`. -/
def pyInt (s : String) : Option Int :=
  let t := (s.data.dropWhile isPySpace).reverse.dropWhile isPySpace |>.reverse
  match t with
  | '-' :: rest => (parseDigits rest).map (fun n => -(n : Int))
  | '+' :: rest => (parseDigits rest).map (fun n => (n : Int))
  | rest => (parseDigits rest).map (fun n => (n : Int))

/-- Decimal digit list of a natural number (fuel-based so the kernel can
evaluate it). -/
def natToStrAux : Nat → Nat → List Char
  | 0, _ => []
  | fuel + 1, n =>
      if n < 10 then [Char.ofNat (48 + n)]
      else natToStrAux fuel (n / 10) ++ [Char.ofNat (48 + n % 10)]

/-- Decimal string of a natural number, as Python's `str`/f-string prints
it. -/
def natToStr (n : Nat) : String := ⟨natToStrAux (n + 1) n⟩

/-- Decimal string of an integer, as Python's f-string prints it. -/
def intToStr (n : Int) : String :=
  if n < 0 then ⟨'-' :: (natToStr n.natAbs).data⟩ else natToStr n.natAbs

/-- Python `s.endswith('k')`. -/
def endsWithK (s : String) : Bool := s.data.getLast? = some 'k'

/-! # Bitrate floor (`YouTubeAudioDownloader._get_opus_bitrate`)

Straight translation of the source.  The second component records whether a
warning was printed.  A JSON-number quality value behaves as its decimal
string (Python `int(192) = int("192")`), so the model takes a string. -/

/-- Model of `_get_opus_bitrate`: result bitrate string and whether a
warning was printed. -/
def getOpusBitrate (quality : String) : String × Bool :=
  if quality = "best" then ("192k", false)
  else
    match (if endsWithK quality then pyInt ⟨quality.data.dropLast⟩ else none) with
    | some n =>
        if n < 128 then ("128k", true) else (quality, false)
    | none =>
        match pyInt quality with
        | some n =>
            if n < 128 then ("128k", true)
            else (String.mk ((intToStr n).data ++ ['k']), false)
        | none => ("128k", true)

/-- C3: the bitrate computation satisfies the bitrate-floor rule: `"best"`
yields the fixed high bitrate `"192k"` without warning; a quality `"<N>k"`
with `N` below 128 yields `"128k"` with a warning, and with `N` at least 128
yields the input `"<N>k"` unchanged; a bare `<N>` below 128 yields `"128k"`
with a warning, and at least 128 yields `"<N>k"`; a quality matching none of
these shapes yields `"128k"` with a warning; in particular `"64k"` yields
`"128k"` with a warning and `"192"` yields `"192k"`. -/
theorem bitrate_floor_rule :
    (getOpusBitrate "best" = ("192k", false)) ∧
    (∀ q : String, ∀ n : Int, endsWithK q = true →
      pyInt ⟨q.data.dropLast⟩ = some n → n < 128 →
      getOpusBitrate q = ("128k", true)) ∧
    (∀ q : String, ∀ n : Int, endsWithK q = true →
      pyInt ⟨q.data.dropLast⟩ = some n → 128 ≤ n →
      getOpusBitrate q = (q, false)) ∧
    (∀ q : String, ∀ n : Int, endsWithK q = false → pyInt q = some n →
      n < 128 → getOpusBitrate q = ("128k", true)) ∧
    (∀ q : String, ∀ n : Int, endsWithK q = false → pyInt q = some n →
      128 ≤ n →
      getOpusBitrate q = (String.mk ((intToStr n).data ++ ['k']), false)) ∧
    (∀ q : String, q ≠ "best" →
      (endsWithK q = true → pyInt ⟨q.data.dropLast⟩ = none) →
      pyInt q = none → getOpusBitrate q = ("128k", true)) ∧
    getOpusBitrate "64k" = ("128k", true) ∧
    getOpusBitrate "192" = ("192k", false) := by
  refine ⟨by decide, ?_, ?_, ?_, ?_, ?_, by decide, by decide⟩
  · intro q n hk hp hn
    have hqb : q ≠ "best" := by
      rintro rfl; exact absurd hk (by decide)
    simp [getOpusBitrate, hqb, hk, hp, hn]
  · intro q n hk hp hn
    have hqb : q ≠ "best" := by
      rintro rfl; exact absurd hk (by decide)
    have hn' : ¬ n < 128 := by omega
    simp [getOpusBitrate, hqb, hk, hp, hn']
  · intro q n hk hp hn
    have hqb : q ≠ "best" := by
      rintro rfl; exact absurd hp (by simp [pyInt, parseDigits, isPySpace])
    simp [getOpusBitrate, hqb, hk, hp, hn]
  · intro q n hk hp hn
    have hqb : q ≠ "best" := by
      rintro rfl; exact absurd hp (by simp [pyInt, parseDigits, isPySpace])
    have hn' : ¬ n < 128 := by omega
    simp [getOpusBitrate, hqb, hk, hp, hn']
  · intro q hqb hkp hp
    cases hk : endsWithK q with
    | true => simp [getOpusBitrate, hqb, hk, hkp hk, hp]
    | false => simp [getOpusBitrate, hqb, hk, hp]

/-- Witness for C3 at concrete inputs. -/
theorem bitrate_floor_rule_witness :
    getOpusBitrate "64k" = ("128k", true) ∧
    getOpusBitrate " 150 " = ("150k", false) := by
  constructor
  · exact bitrate_floor_rule.2.1 "64k" 64 (by decide) (by decide) (by decide)
  · exact (bitrate_floor_rule.2.2.2.2.1 " 150 " 150 (by decide) (by decide)
      (by decide)).trans (by decide)

/-! # Data model: settings, encoding descriptors, external-call results -/

/-- The `cookies` block of the settings, after `_load_settings`
normalization. -/
structure CookieSettings where
  use_browser_cookies : Bool
  custom_cookies_file : Option String
  preferred_browser : String
  deriving DecidableEq, Repr

/-- Python truthiness of the optional `custom_cookies_file` value
(`None` and the empty string are falsy). -/
def isTruthy : Option String → Bool
  | none => false
  | some s => s ≠ ""

/-- One encoding descriptor from the remote catalog (one entry of
`info['formats']`); `none` models an absent dictionary key. -/
structure Fmt where
  format_id : String
  ext : Option String
  acodec : Option String
  vcodec : Option String
  abr : Option Nat
  format_note : Option String
  deriving DecidableEq, Repr

/-- Outcome of one `ydl.download` call. -/
inductive TransferOutcome
  | ok
  | dlError (msg : String)
  | exn (msg : String)
  deriving DecidableEq, Repr

/-- The cookie source placed in the yt-dlp option dictionary: a cookie
file path (`cookiefile`), a browser name (`cookiesfrombrowser`), or
nothing. -/
inductive CookieSource
  | file (path : String)
  | browser (name : String)
  | nothing
  deriving DecidableEq, Repr

/-- Results of the external calls made during one `download` run.
`extractResult i` is the result of the `i`-th call to
`_get_browser_cookies_fallback` (a temp cookie file path, or `none` on
failure); `probeResult` is the format-analysis `extract_info` result
(`none` models an exception or the 30 s timeout); `transfer1`/`transfer2`
are the outcomes of the primary and escalated `ydl.download` calls. -/
structure Env where
  extractResult : Nat → Option String
  probeResult : Option (List Fmt)
  transfer1 : TransferOutcome
  transfer2 : TransferOutcome

/-- Mutable per-run state: the tracked `_temp_cookie_file` slot, the log of
temp cookie files materialized so far, and how many extraction calls have
happened. -/
structure RunState where
  tempCookie : Option String
  created : List String
  extractCalls : Nat
  deriving DecidableEq, Repr

/-- Initial state of a run (`_temp_cookie_file = None`). -/
def initState : RunState := ⟨none, [], 0⟩

/-- Result of one `_get_base_options` call: the cookie source put in the
options, whether `_get_browser_cookies_fallback` was invoked, and the
updated run state. -/
structure BaseOpts where
  source : CookieSource
  advancedExtractionUsed : Bool
  st : RunState
  deriving Repr

/-- Model of `_get_base_options(use_fallback_cookies)` (cookie handling
part).  Mirrors the source branch for branch: the custom cookie file is
consulted only when `use_browser_cookies` is false; otherwise, for Firefox
or on escalation, advanced extraction runs and, on success, its temp file
path overwrites the `_temp_cookie_file` slot. -/
def getBaseOptions (cfg : CookieSettings) (useFallbackCookies : Bool)
    (env : Env) (st : RunState) : BaseOpts :=
  if ¬ cfg.use_browser_cookies ∧ isTruthy cfg.custom_cookies_file then
    { source := .file (cfg.custom_cookies_file.getD "")
      advancedExtractionUsed := false
      st := st }
  else if cfg.use_browser_cookies then
    if cfg.preferred_browser = "firefox" ∨ useFallbackCookies then
      match env.extractResult st.extractCalls with
      | some f =>
          { source := .file f
            advancedExtractionUsed := true
            st := { tempCookie := some f
                    created := st.created ++ [f]
                    extractCalls := st.extractCalls + 1 } }
      | none =>
          let st' : RunState :=
            { tempCookie := st.tempCookie
              created := st.created
              extractCalls := st.extractCalls + 1 }
          if cfg.preferred_browser ≠ "firefox" then
            { source := .browser cfg.preferred_browser
              advancedExtractionUsed := true
              st := st' }
          else
            { source := .nothing, advancedExtractionUsed := true, st := st' }
    else
      { source := .browser cfg.preferred_browser
        advancedExtractionUsed := false
        st := st }
  else
    { source := .nothing, advancedExtractionUsed := false, st := st }

/-- An environment whose external calls all fail (used to instantiate
counterexamples). -/
def envNull : Env :=
  ⟨fun _ => none, none, .dlError "", .dlError ""⟩

/-- C2 counterexample: with `use_browser_cookies = true` and a custom
cookie file configured (and existing), credential resolution does not
return the custom path; it attempts browser cookie extraction instead
(yt-dlp built-in extraction for the preferred browser). -/
theorem custom_cookie_counterexample :
    (getBaseOptions ⟨true, some "/tmp/cookies.txt", "chrome"⟩ false envNull
        initState).source = .browser "chrome" ∧
    (getBaseOptions ⟨true, some "/tmp/cookies.txt", "chrome"⟩ false envNull
        initState).source ≠ .file "/tmp/cookies.txt" := by
  constructor <;> decide

/-- C2 amended: the custom cookie file is returned as the cookie source
exactly when `use_browser_cookies` is false and the file is configured
(truthy); in that case no browser extraction of any kind is attempted and
the run state is untouched.  When `use_browser_cookies` is true the custom
file is ignored and a browser-based source is used instead. -/
theorem custom_cookie_resolution :
    ∀ (cfg : CookieSettings) (esc : Bool) (env : Env) (st : RunState),
      cfg.use_browser_cookies = false →
      isTruthy cfg.custom_cookies_file = true →
      (getBaseOptions cfg esc env st).source
          = .file (cfg.custom_cookies_file.getD "") ∧
      (getBaseOptions cfg esc env st).advancedExtractionUsed = false ∧
      (getBaseOptions cfg esc env st).st = st := by
  intro cfg esc env st hb hc
  simp [getBaseOptions, hb, hc]

/-- Witness for the amended C2 at a concrete policy. -/
theorem custom_cookie_resolution_witness :
    (getBaseOptions ⟨false, some "/home/u/c.txt", "firefox"⟩ true envNull
        initState).source = .file "/home/u/c.txt" :=
  (custom_cookie_resolution ⟨false, some "/home/u/c.txt", "firefox"⟩ true
    envNull initState (by decide) (by decide)).1

/-! # Format selection (`download`, lines 709-752)

The source sorts each candidate tier with
`sort(key=lambda x: x.get('abr', 0), reverse=True)` (a stable descending
sort) and takes element 0; the head of a stable descending sort is the
first element attaining the maximal key, which `pickMaxAbr` computes
directly. -/

/-- Sort key `x.get('abr', 0)`. -/
def abrKey (f : Fmt) : Nat := f.abr.getD 0

/-- Audio-only classification: `f.get('vcodec') == 'none'`. -/
def isAudioOnly (f : Fmt) : Bool := f.vcodec = some "none"

/-- Opus audio-only: `f.get('acodec') == 'opus' and f.get('vcodec') == 'none'`. -/
def isOpusAudio (f : Fmt) : Bool := f.acodec = some "opus" && isAudioOnly f

/-- Webm audio-only: `f.get('ext') == 'webm' and f.get('vcodec') == 'none'`. -/
def isWebmAudio (f : Fmt) : Bool := f.ext = some "webm" && isAudioOnly f

/-- First element of `d :: ds` attaining the maximal `abrKey` (the head of
the stable descending sort the source performs). -/
def pickMaxAbr (d : Fmt) (ds : List Fmt) : Fmt :=
  ds.foldl (fun best x => if abrKey best < abrKey x then x else best) d

/-- Tier selection over the probed descriptors: best opus audio-only, else
best webm audio-only, else best audio-only, else `none` (caller falls back
to the generic selector expression). -/
def selectBestFormat (formats : List Fmt) : Option String :=
  match formats.filter isOpusAudio with
  | d :: ds => some (pickMaxAbr d ds).format_id
  | [] =>
    match formats.filter isWebmAudio with
    | d :: ds => some (pickMaxAbr d ds).format_id
    | [] =>
      match formats.filter isAudioOnly with
      | d :: ds => some (pickMaxAbr d ds).format_id
      | [] => none

/-- The generic ordered fallback selector expression (line 752). -/
def fallbackSelector : String :=
  "bestaudio[acodec=opus]/bestaudio[ext=webm]/bestaudio[ext=m4a]/bestaudio/best"

/-- The broadened selector used on the escalated attempt (line 857). -/
def escalatedSelector : String :=
  "bestaudio[acodec=opus]/bestaudio[ext=webm]/bestaudio[ext=m4a]/bestaudio/best[height<=720]/best"

theorem pickMaxAbr_cons (d x : Fmt) (ds : List Fmt) :
    pickMaxAbr d (x :: ds)
      = pickMaxAbr (if abrKey d < abrKey x then x else d) ds := rfl

theorem pickMaxAbr_mem (d : Fmt) (ds : List Fmt) :
    pickMaxAbr d ds ∈ d :: ds := by
  induction ds generalizing d with
  | nil => simp [pickMaxAbr]
  | cons x xs ih =>
    rw [pickMaxAbr_cons]
    have h := ih (if abrKey d < abrKey x then x else d)
    rcases List.mem_cons.mp h with h1 | h1
    · rw [h1]
      by_cases hd : abrKey d < abrKey x
      · simp [hd]
      · simp [hd]
    · simp only [List.mem_cons]
      tauto

theorem pickMaxAbr_max (d : Fmt) (ds : List Fmt) :
    ∀ x ∈ d :: ds, abrKey x ≤ abrKey (pickMaxAbr d ds) := by
  induction ds generalizing d with
  | nil => intro y hy; simp at hy; subst hy; simp [pickMaxAbr]
  | cons x xs ih =>
    intro y hy
    rw [pickMaxAbr_cons]
    have hstart := ih (if abrKey d < abrKey x then x else d)
        (if abrKey d < abrKey x then x else d) (List.mem_cons_self _ _)
    have hbound : abrKey y ≤ abrKey (if abrKey d < abrKey x then x else d)
        ∨ y ∈ xs := by
      rcases List.mem_cons.mp hy with h1 | h1
      · subst h1
        left
        by_cases hd : abrKey y < abrKey x <;> simp [hd] <;> omega
      · rcases List.mem_cons.mp h1 with h2 | h2
        · subst h2
          left
          by_cases hd : abrKey d < abrKey y <;> simp [hd] <;> omega
        · right; exact h2
    rcases hbound with hb | hb
    · exact le_trans hb hstart
    · exact ih _ y (List.mem_cons_of_mem _ hb)

/-- C4: format selection from the probed list is deterministic and tiered
over audio-only descriptors: if an opus audio-only descriptor exists the
selected identifier is that of an opus audio-only descriptor of maximal
bitrate; failing that, the same for webm audio-only descriptors, then for
any audio-only descriptor; with no audio-only descriptor no identifier is
selected (the generic fallback expression is used).  On
`[aac 128, opus 96, opus 160]` the opus descriptor with bitrate 160 is
selected. -/
theorem format_selection_tiered :
    (∀ fs : List Fmt, (∃ f ∈ fs, isOpusAudio f = true) →
      ∃ g ∈ fs, isOpusAudio g = true ∧
        selectBestFormat fs = some g.format_id ∧
        ∀ h ∈ fs, isOpusAudio h = true → abrKey h ≤ abrKey g) ∧
    (∀ fs : List Fmt, (∀ f ∈ fs, isOpusAudio f = false) →
      (∃ f ∈ fs, isWebmAudio f = true) →
      ∃ g ∈ fs, isWebmAudio g = true ∧
        selectBestFormat fs = some g.format_id ∧
        ∀ h ∈ fs, isWebmAudio h = true → abrKey h ≤ abrKey g) ∧
    (∀ fs : List Fmt, (∀ f ∈ fs, isOpusAudio f = false) →
      (∀ f ∈ fs, isWebmAudio f = false) →
      (∃ f ∈ fs, isAudioOnly f = true) →
      ∃ g ∈ fs, isAudioOnly g = true ∧
        selectBestFormat fs = some g.format_id ∧
        ∀ h ∈ fs, isAudioOnly h = true → abrKey h ≤ abrKey g) ∧
    (∀ fs : List Fmt, (∀ f ∈ fs, isAudioOnly f = false) →
      selectBestFormat fs = none) ∧
    selectBestFormat
      [⟨"a", some "m4a", some "aac", some "none", some 128, none⟩,
       ⟨"b", some "webm", some "opus", some "none", some 96, none⟩,
       ⟨"c", some "webm", some "opus", some "none", some 160, none⟩]
      = some "c" := by
  refine ⟨?_, ?_, ?_, ?_, by decide⟩
  · intro fs hex
    cases hf : fs.filter isOpusAudio with
    | nil =>
      exfalso
      obtain ⟨f, hmem, hp⟩ := hex
      have : f ∈ fs.filter isOpusAudio := List.mem_filter.mpr ⟨hmem, hp⟩
      simp [hf] at this
    | cons d ds =>
      refine ⟨pickMaxAbr d ds, ?_, ?_, ?_, ?_⟩
      · have := pickMaxAbr_mem d ds
        rw [← hf] at this
        exact (List.mem_filter.mp this).1
      · have := pickMaxAbr_mem d ds
        rw [← hf] at this
        exact (List.mem_filter.mp this).2
      · simp [selectBestFormat, hf]
      · intro h hmem hp
        exact pickMaxAbr_max d ds h (by rw [← hf]; exact List.mem_filter.mpr ⟨hmem, hp⟩)
  · intro fs hnone hex
    have hf0 : fs.filter isOpusAudio = [] := by
      rw [List.filter_eq_nil_iff]
      intro f hmem; simp [hnone f hmem]
    cases hf : fs.filter isWebmAudio with
    | nil =>
      exfalso
      obtain ⟨f, hmem, hp⟩ := hex
      have : f ∈ fs.filter isWebmAudio := List.mem_filter.mpr ⟨hmem, hp⟩
      simp [hf] at this
    | cons d ds =>
      refine ⟨pickMaxAbr d ds, ?_, ?_, ?_, ?_⟩
      · have := pickMaxAbr_mem d ds
        rw [← hf] at this
        exact (List.mem_filter.mp this).1
      · have := pickMaxAbr_mem d ds
        rw [← hf] at this
        exact (List.mem_filter.mp this).2
      · simp [selectBestFormat, hf0, hf]
      · intro h hmem hp
        exact pickMaxAbr_max d ds h (by rw [← hf]; exact List.mem_filter.mpr ⟨hmem, hp⟩)
  · intro fs hnone1 hnone2 hex
    have hf0 : fs.filter isOpusAudio = [] := by
      rw [List.filter_eq_nil_iff]
      intro f hmem; simp [hnone1 f hmem]
    have hf1 : fs.filter isWebmAudio = [] := by
      rw [List.filter_eq_nil_iff]
      intro f hmem; simp [hnone2 f hmem]
    cases hf : fs.filter isAudioOnly with
    | nil =>
      exfalso
      obtain ⟨f, hmem, hp⟩ := hex
      have : f ∈ fs.filter isAudioOnly := List.mem_filter.mpr ⟨hmem, hp⟩
      simp [hf] at this
    | cons d ds =>
      refine ⟨pickMaxAbr d ds, ?_, ?_, ?_, ?_⟩
      · have := pickMaxAbr_mem d ds
        rw [← hf] at this
        exact (List.mem_filter.mp this).1
      · have := pickMaxAbr_mem d ds
        rw [← hf] at this
        exact (List.mem_filter.mp this).2
      · simp [selectBestFormat, hf0, hf1, hf]
      · intro h hmem hp
        exact pickMaxAbr_max d ds h (by rw [← hf]; exact List.mem_filter.mpr ⟨hmem, hp⟩)
  · intro fs hnone
    have h0 : fs.filter isAudioOnly = [] := by
      rw [List.filter_eq_nil_iff]
      intro f hmem; simp [hnone f hmem]
    have h1 : fs.filter isOpusAudio = [] := by
      rw [List.filter_eq_nil_iff]
      intro f hmem
      simp [isOpusAudio, Bool.and_eq_true]
      intro _; simpa using hnone f hmem
    have h2 : fs.filter isWebmAudio = [] := by
      rw [List.filter_eq_nil_iff]
      intro f hmem
      simp [isWebmAudio, Bool.and_eq_true]
      intro _; simpa using hnone f hmem
    simp [selectBestFormat, h0, h1, h2]

/-- Witness for C4 at the spec's concrete descriptor list. -/
theorem format_selection_tiered_witness :
    ∃ g ∈ [(⟨"a", some "m4a", some "aac", some "none", some 128, none⟩ : Fmt),
           ⟨"b", some "webm", some "opus", some "none", some 96, none⟩,
           ⟨"c", some "webm", some "opus", some "none", some 160, none⟩],
      isOpusAudio g = true ∧
      selectBestFormat
        [⟨"a", some "m4a", some "aac", some "none", some 128, none⟩,
         ⟨"b", some "webm", some "opus", some "none", some 96, none⟩,
         ⟨"c", some "webm", some "opus", some "none", some 160, none⟩]
        = some g.format_id ∧
      ∀ h ∈ [(⟨"a", some "m4a", some "aac", some "none", some 128, none⟩ : Fmt),
             ⟨"b", some "webm", some "opus", some "none", some 96, none⟩,
             ⟨"c", some "webm", some "opus", some "none", some 160, none⟩],
        isOpusAudio h = true → abrKey h ≤ abrKey g :=
  format_selection_tiered.1 _
    ⟨⟨"b", some "webm", some "opus", some "none", some 96, none⟩,
      by decide, by decide⟩

/-! # Format listing (`list_formats`, lines 539-648) -/

/-- Image/storyboard placeholder classification (line 607):
`f.get('ext') == 'mhtml' or f.get('format_note', '').lower().startswith('storyboard')`. -/
def isImageOnly (f : Fmt) : Bool :=
  f.ext = some "mhtml"
    || startsAt "storyboard".data (lowerL (f.format_note.getD "").data)

/-- Error signatures that trigger the fallback listing attempt (line 619). -/
def fallbackTrigger (err : String) : Bool :=
  containsStr "Requested format is not available" err
    || containsStr "Only images are available" err
    || containsStr "Some web client https formats have been skipped" err

/-- External results for one `list_formats` call: the primary
`extract_info` (its `formats` list, or the exception message) and the
unauthenticated desktop fallback `extract_info`. -/
structure ListEnv where
  primary : Except String (List Fmt)
  fallbackR : Except String (List Fmt)

/-- Result of `list_formats`: the returned format list (or `None`) and
whether the degenerate image-only response was turned into the
`Only images are available` error. -/
structure ListResult where
  result : Option (List Fmt)
  imageOnlyError : Bool
  deriving DecidableEq, Repr

/-- The shared error handler of `list_formats` (the `except` block): retry
once with a fresh desktop profile, no credential and a generic best-audio
selector when the error matches a known signature; otherwise give up. -/
def listHandleErr (env : ListEnv) (err : String) (imgFlag : Bool) : ListResult :=
  if fallbackTrigger err then
    match env.fallbackR with
    | .ok fs => if fs.isEmpty then ⟨none, imgFlag⟩ else ⟨some fs, imgFlag⟩
    | .error _ => ⟨none, imgFlag⟩
  else ⟨none, imgFlag⟩

/-- Model of `list_formats`: empty catalog returns `None`; a non-empty
catalog in which every descriptor is an image/storyboard placeholder
raises `Only images are available`, which flows into the fallback
handler; otherwise the catalog is returned. -/
def listFormatsRun (env : ListEnv) : ListResult :=
  match env.primary with
  | .error e => listHandleErr env e false
  | .ok fs =>
    if fs.isEmpty then ⟨none, false⟩
    else if fs.all isImageOnly then
      listHandleErr env "Only images are available" true
    else ⟨some fs, false⟩

/-- C9: a non-empty probe response whose descriptors are all
image/storyboard placeholders is reported as an error rather than returned
as a successful catalog: the degenerate list itself is never the result;
any returned list comes from the credential-free fallback query. -/
theorem image_only_probe_rejected :
    ∀ (env : ListEnv) (fs : List Fmt), env.primary = .ok fs → fs ≠ [] →
      fs.all isImageOnly = true →
      (listFormatsRun env).imageOnlyError = true ∧
      ((listFormatsRun env).result = none ∨
        ∃ gs, env.fallbackR = .ok gs ∧ gs ≠ [] ∧
          (listFormatsRun env).result = some gs) := by
  intro env fs hp hne hall
  have hne' : fs.isEmpty = false := by
    cases fs with
    | nil => exact absurd rfl hne
    | cons a l => rfl
  have hrun : listFormatsRun env
      = listHandleErr env "Only images are available" true := by
    simp [listFormatsRun, hp, hne', hall]
  rw [hrun]
  have htrig : fallbackTrigger "Only images are available" = true := by decide
  constructor
  · cases hf : env.fallbackR with
    | ok gs => cases hgs : gs.isEmpty <;> simp [listHandleErr, htrig, hf, hgs]
    | error e => simp [listHandleErr, htrig, hf]
  · cases hf : env.fallbackR with
    | ok gs =>
      cases hgs : gs.isEmpty with
      | true => left; simp [listHandleErr, htrig, hf, hgs]
      | false =>
        right
        refine ⟨gs, rfl, ?_, by simp [listHandleErr, htrig, hf, hgs]⟩
        cases gs with
        | nil => simp at hgs
        | cons a l => simp
    | error e => left; simp [listHandleErr, htrig, hf]

/-- Witness for C9: a concrete storyboard-only response is rejected and,
with a failing fallback, the listing returns nothing. -/
theorem image_only_probe_rejected_witness :
    (listFormatsRun
        ⟨.ok [⟨"sb0", some "mhtml", none, none, none, some "storyboard"⟩],
         .error "fallback failed"⟩).imageOnlyError = true ∧
    (listFormatsRun
        ⟨.ok [⟨"sb0", some "mhtml", none, none, none, some "storyboard"⟩],
         .error "fallback failed"⟩).result = none := by
  have h := image_only_probe_rejected
      ⟨.ok [⟨"sb0", some "mhtml", none, none, none, some "storyboard"⟩],
       .error "fallback failed"⟩
      [⟨"sb0", some "mhtml", none, none, none, some "storyboard"⟩]
      rfl (by decide) (by decide)
  refine ⟨h.1, ?_⟩
  rcases h.2 with h2 | ⟨gs, hgs, _, _⟩
  · exact h2
  · simp at hgs

/-! # Model of `urllib.parse` (CPython) as used by `_clean_youtube_url`

`urlparse`, `urlunparse`, `parse_qs`, `urlencode` (with its default
`quote_plus`) and `unquote` are modelled over `List Char`, following the
CPython 3.10 implementation.  Scope notes:
* `str.lower` and classification functions are ASCII (the strings the
  parser inspects — schemes, the allow-listed parameter names — are
  ASCII);
* `_checknetloc`'s NFKC normalization check is modelled as a no-op (it is
  a no-op on every ASCII netloc, and a failure there would only take the
  `except` fallback which returns the input unchanged);
* Python's decode-with-replacement of malformed percent-sequences is
  modelled as one U+FFFD per undecodable byte.  CPython merges some
  maximal subparts into a single U+FFFD; no theorem below depends on the
  malformed case, only on totality and on well-formed round trips. -/

/-- Characters allowed in a URL scheme (`scheme_chars`). -/
def schemeChar (c : Char) : Bool :=
  c.isAlpha || c.isDigit || c = '+' || c = '-' || c = '.'

/-- C0 control characters and space, stripped from the left of the URL
(`_WHATWG_C0_CONTROL_OR_SPACE`). -/
def isC0OrSpace (c : Char) : Bool := c.toNat ≤ 0x20

/-- Tab, newline, carriage return — removed from the whole URL
(`_UNSAFE_URL_BYTES_TO_REMOVE`). -/
def isTRN (c : Char) : Bool := c = '\t' || c = '\n' || c = '\r'

/-- Characters that terminate the netloc (`_splitnetloc`). -/
def netlocDelim (c : Char) : Bool := c = '/' || c = '?' || c = '#'

/-- Split at the first occurrence of `sep` (`str.split(sep, 1)` when it
occurs); `none` when `sep` does not occur. -/
def splitAtFirstChar (sep : Char) : List Char → Option (List Char × List Char)
  | [] => none
  | c :: rest =>
    if c = sep then some ([], rest)
    else
      match splitAtFirstChar sep rest with
      | some (a, b) => some (c :: a, b)
      | none => none

/-- Split at the last occurrence of `sep`; `none` when `sep` does not
occur. -/
def splitAtLastChar (sep : Char) (l : List Char) : Option (List Char × List Char) :=
  match splitAtFirstChar sep l.reverse with
  | some (rb, ra) => some (ra.reverse, rb.reverse)
  | none => none

/-- The result of `urlsplit`: scheme, netloc, path, query, fragment. -/
structure SplitParts where
  scheme : List Char
  netloc : List Char
  path : List Char
  query : List Char
  fragment : List Char
  deriving DecidableEq, Repr

/-- The result of `urlparse`: `urlsplit` plus the params component split
from the last path segment. -/
structure UrlParts where
  scheme : List Char
  netloc : List Char
  path : List Char
  params : List Char
  query : List Char
  fragment : List Char
  deriving DecidableEq, Repr

/-- Scheme extraction: the text before the first `:` is the scheme when it
is non-empty, starts with an ASCII letter, and consists of scheme
characters only; it is lower-cased.  Otherwise no scheme is split off. -/
def splitScheme (url : List Char) : List Char × List Char :=
  match splitAtFirstChar ':' url with
  | some (pre, post) =>
    match pre with
    | [] => ([], url)
    | c0 :: _ =>
      if c0.isAlpha ∧ pre.all schemeChar then (lowerL pre, post)
      else ([], url)
  | none => ([], url)

/-- Initial cleanup of the URL text: strip leading controls/space, remove
tab/newline/CR everywhere. -/
def stripUrl (u : List Char) : List Char :=
  (u.dropWhile isC0OrSpace).filter (fun c => ! isTRN c)

/-- Netloc extraction: after a leading `//` (`url[:2] == '//'`), the
netloc runs up to the first `/`, `?` or `#` (`_splitnetloc`). -/
def splitNetloc (u : List Char) : List Char × List Char :=
  if startsAt ['/', '/'] u then
    ((u.drop 2).takeWhile (fun c => ! netlocDelim c),
     (u.drop 2).dropWhile (fun c => ! netlocDelim c))
  else ([], u)

/-- Split at the first occurrence of `sep`, keeping everything when `sep`
does not occur (used for the fragment and query separators). -/
def splitOn1 (sep : Char) (v : List Char) : List Char × List Char :=
  match splitAtFirstChar sep v with
  | some (a, b) => (a, b)
  | none => (v, [])

/-- The netloc bracket sanity check that makes CPython raise
`ValueError("Invalid IPv6 URL")`. -/
def bracketsBad (netloc : List Char) : Bool :=
  (netloc.contains '[' && ! netloc.contains ']')
    || (netloc.contains ']' && ! netloc.contains '[')

/-- Model of `urlsplit` (CPython 3.10): left-strip controls/space, remove
tab/newline/CR, split scheme, netloc (after `//`), fragment, then query.
Returns `none` exactly where CPython raises `ValueError` (unbalanced
square bracket in the netloc). -/
def urlsplitL (url0 : List Char) : Option SplitParts :=
  let url1 := stripUrl url0
  let sp := splitScheme url1
  let nl := splitNetloc sp.2
  if bracketsBad nl.1 then none
  else
    let fr := splitOn1 '#' nl.2
    let qu := splitOn1 '?' fr.1
    some ⟨sp.1, nl.1, qu.1, qu.2, fr.2⟩

/-- `_splitparams`: split the params off the last path segment (the text
after the first `;` at or after the last `/`). -/
def splitparamsL (pw : List Char) : List Char × List Char :=
  match splitAtLastChar '/' pw with
  | some (before, after) =>
    match splitAtFirstChar ';' after with
    | some (a, b) => (before ++ '/' :: a, b)
    | none => (pw, [])
  | none =>
    match splitAtFirstChar ';' pw with
    | some (a, b) => (a, b)
    | none => (pw, [])

/-- Model of `urlparse`. -/
def urlparseL (url : List Char) : Option UrlParts :=
  match urlsplitL url with
  | none => none
  | some s =>
    let pp := splitparamsL s.path
    some ⟨s.scheme, s.netloc, pp.1, pp.2, s.query, s.fragment⟩

/-- Re-join path and params (`urlunparse`, first step). -/
def joinParams (path params : List Char) : List Char :=
  if params.isEmpty then path else path ++ ';' :: params

/-- Model of `urlunsplit`. -/
def urlunsplitL (scheme netloc path query fragment : List Char) : List Char :=
  let u1 :=
    if ¬ netloc.isEmpty ∨ startsAt ['/', '/'] path then
      let p :=
        match path with
        | [] => []
        | c :: _ => if c ≠ '/' then '/' :: path else path
      '/' :: '/' :: (netloc ++ p)
    else path
  let u2 := if scheme.isEmpty then u1 else scheme ++ ':' :: u1
  let u3 := if query.isEmpty then u2 else u2 ++ '?' :: query
  if fragment.isEmpty then u3 else u3 ++ '#' :: fragment

/-- Model of `urlunparse`. -/
def urlunparseL (p : UrlParts) : List Char :=
  urlunsplitL p.scheme p.netloc (joinParams p.path p.params) p.query p.fragment

/-! ## Percent-encoding and decoding -/

/-- Characters never quoted by `urllib.parse.quote` (`_ALWAYS_SAFE`):
ASCII alphanumerics and `_.-~`. -/
def safeChar (c : Char) : Bool :=
  c.isAlphanum || c = '_' || c = '.' || c = '-' || c = '~'

/-- Uppercase hex digit of a value below 16. -/
def hexDigitU (n : Nat) : Char :=
  if n < 10 then Char.ofNat (48 + n) else Char.ofNat (55 + n)

/-- Percent-encoding of one byte: `%XX` with uppercase hex. -/
def pctByte (b : Nat) : List Char := ['%', hexDigitU (b / 16), hexDigitU (b % 16)]

/-- UTF-8 bytes of a code point (1-4 bytes). -/
def utf8Bytes (n : Nat) : List Nat :=
  if n < 0x80 then [n]
  else if n < 0x800 then [0xC0 + n / 64, 0x80 + n % 64]
  else if n < 0x10000 then [0xE0 + n / 4096, 0x80 + n / 64 % 64, 0x80 + n % 64]
  else [0xF0 + n / 262144, 0x80 + n / 4096 % 64, 0x80 + n / 64 % 64, 0x80 + n % 64]

/-- `quote_plus` on one character: space becomes `+`, safe characters pass
through, everything else is the percent-encoding of its UTF-8 bytes. -/
def quotePlusChar (c : Char) : List Char :=
  if safeChar c then [c]
  else if c = ' ' then ['+']
  else (utf8Bytes c.toNat).flatMap pctByte

/-- `quote_plus` on a character list. -/
def quotePlusL (l : List Char) : List Char := l.flatMap quotePlusChar

/-- Value of a hex digit character (`_hextobyte` accepts both cases). -/
def hexVal? (c : Char) : Option Nat :=
  if '0' ≤ c ∧ c ≤ '9' then some (c.toNat - 48)
  else if 'a' ≤ c ∧ c ≤ 'f' then some (c.toNat - 87)
  else if 'A' ≤ c ∧ c ≤ 'F' then some (c.toNat - 55)
  else none

/-- Scanner state for percent-decoding: nothing pending, a pending `%`,
or a pending `%` plus one valid hex digit. -/
inductive PctSt
  | clean
  | pct
  | pcth (h1 : Nat) (c1 : Char)

/-- One-character-per-step scanner turning valid `%XX` groups into byte
tokens and everything else into literal character tokens. -/
def pctLoop : PctSt → List Char → List (Char ⊕ Nat)
  | .clean, [] => []
  | .pct, [] => [.inl '%']
  | .pcth _ c1, [] => [.inl '%', .inl c1]
  | .clean, c :: rest =>
    if c = '%' then pctLoop .pct rest
    else .inl c :: pctLoop .clean rest
  | .pct, c :: rest =>
    match hexVal? c with
    | some h1 => pctLoop (.pcth h1 c) rest
    | none =>
      if c = '%' then .inl '%' :: pctLoop .pct rest
      else .inl '%' :: .inl c :: pctLoop .clean rest
  | .pcth h1 c1, c :: rest =>
    match hexVal? c with
    | some h2 => .inr (h1 * 16 + h2) :: pctLoop .clean rest
    | none =>
      if c = '%' then .inl '%' :: .inl c1 :: pctLoop .pct rest
      else .inl '%' :: .inl c1 :: .inl c :: pctLoop .clean rest

/-- Tokenize a percent-encoded string: each valid `%XX` becomes a byte
token, everything else a literal character token. -/
def pctTokens (l : List Char) : List (Char ⊕ Nat) := pctLoop .clean l

/-- The U+FFFD replacement character. -/
def replChar : Char := Char.ofNat 0xFFFD

/-- UTF-8 continuation byte test. -/
def contByte (b : Nat) : Bool := 0x80 ≤ b ∧ b < 0xC0

/-- A partially-read multi-byte UTF-8 sequence: the lead byte, the total
sequence length (2-4), and the continuation bytes read so far. -/
structure Pend where
  lead : Nat
  len : Nat
  acc : List Nat
  deriving Repr

/-- Range constraint the first continuation byte must satisfy for the
given lead byte (rejects overlong forms, surrogates and values above
U+10FFFF). -/
def leadOK (lead b : Nat) : Bool :=
  (lead ≠ 0xE0 ∨ 0xA0 ≤ b) ∧ (lead ≠ 0xED ∨ b < 0xA0)
    ∧ (lead ≠ 0xF0 ∨ 0x90 ≤ b) ∧ (lead ≠ 0xF4 ∨ b < 0x90)

/-- Is `b` an acceptable next continuation byte for the pending
sequence? -/
def contOK (pd : Pend) (b : Nat) : Bool :=
  contByte b && (if pd.acc.isEmpty then leadOK pd.lead b else true)

/-- Code point assembled from a complete sequence. -/
def assemble (lead : Nat) (len : Nat) (acc : List Nat) : Char :=
  match len, acc with
  | 2, [b1] => Char.ofNat ((lead - 0xC0) * 64 + (b1 - 0x80))
  | 3, [b1, b2] =>
    Char.ofNat ((lead - 0xE0) * 4096 + (b1 - 0x80) * 64 + (b2 - 0x80))
  | 4, [b1, b2, b3] =>
    Char.ofNat ((lead - 0xF0) * 262144 + (b1 - 0x80) * 4096
      + (b2 - 0x80) * 64 + (b3 - 0x80))
  | _, _ => replChar

/-- Process one byte with no sequence pending: ASCII and invalid lead
bytes resolve immediately, multi-byte lead bytes open a pending
sequence. -/
def stepFresh (b : Nat) : List Char × Option Pend :=
  if b < 0x80 then ([Char.ofNat b], none)
  else if b < 0xC2 then ([replChar], none)
  else if b < 0xE0 then ([], some ⟨b, 2, []⟩)
  else if b < 0xF0 then ([], some ⟨b, 3, []⟩)
  else if b < 0xF5 then ([], some ⟨b, 4, []⟩)
  else ([replChar], none)

/-- Incremental UTF-8 decoding of the token stream: literal characters
pass through, byte tokens are decoded (strict UTF-8: overlong forms,
surrogates and out-of-range values rejected), undecodable bytes become
U+FFFD. -/
def decodeLoop : Option Pend → List (Char ⊕ Nat) → List Char
  | none, [] => []
  | some _, [] => [replChar]
  | none, .inl c :: ts => c :: decodeLoop none ts
  | some _, .inl c :: ts => replChar :: c :: decodeLoop none ts
  | none, .inr b :: ts =>
    let s := stepFresh b
    s.1 ++ decodeLoop s.2 ts
  | some pd, .inr b :: ts =>
    if contOK pd b then
      if pd.acc.length + 1 = pd.len - 1 then
        assemble pd.lead pd.len (pd.acc ++ [b]) :: decodeLoop none ts
      else decodeLoop (some ⟨pd.lead, pd.len, pd.acc ++ [b]⟩) ts
    else
      let s := stepFresh b
      replChar :: (s.1 ++ decodeLoop s.2 ts)

/-- Decoding of a full token stream. -/
def decodeTokens (ts : List (Char ⊕ Nat)) : List Char := decodeLoop none ts

/-- Model of `urllib.parse.unquote` (utf-8, errors=replace). -/
def unquoteL (l : List Char) : List Char := decodeTokens (pctTokens l)

/-- `s.replace('+', ' ')`, applied by `parse_qsl` before unquoting. -/
def plusToSpace (l : List Char) : List Char :=
  l.map (fun c => if c = '+' then ' ' else c)

/-- Decoding applied by `parse_qsl` to names and values. -/
def unquotePlusL (l : List Char) : List Char := unquoteL (plusToSpace l)

/-- `str.split(sep)`: split on every occurrence, keeping empty pieces. -/
def splitSep (sep : Char) : List Char → List (List Char)
  | [] => [[]]
  | c :: rest =>
    let r := splitSep sep rest
    if c = sep then [] :: r
    else
      match r with
      | h :: t => (c :: h) :: t
      | [] => [[c]]

/-- Handling of one `name=value` piece by `parse_qsl` with the source's
defaults (`keep_blank_values=False`, `strict_parsing=False`): empty
pieces and pieces without `=` or with an empty value are skipped; names
and values have `+` mapped to space and are percent-decoded. -/
def parseQslPiece (nv : List Char) : Option (List Char × List Char) :=
  if nv.isEmpty then none
  else
    match splitAtFirstChar '=' nv with
    | none => none
    | some (name, value) =>
      if value.isEmpty then none
      else some (unquotePlusL name, unquotePlusL value)

/-- Model of `parse_qsl`: split on `&` and process each piece. -/
def parseQsl (qs : List Char) : List (List Char × List Char) :=
  (splitSep '&' qs).filterMap parseQslPiece

/-- Append one value to the association list, preserving first-occurrence
key order (the behavior of the dict built by `parse_qs`). -/
def insertQsPair : List (List Char × List (List Char)) → List Char → List Char
    → List (List Char × List (List Char))
  | [], k, v => [(k, [v])]
  | (k', vs) :: t, k, v =>
    if k' = k then (k', vs ++ [v]) :: t else (k', vs) :: insertQsPair t k v

/-- Model of `parse_qs`: group `parse_qsl` pairs by name, preserving
insertion order of keys and of values. -/
def parseQs (qs : List Char) : List (List Char × List (List Char)) :=
  (parseQsl qs).foldl (fun acc kv => insertQsPair acc kv.1 kv.2) []

/-- Model of `urlencode` with its defaults (`quote_via=quote_plus`): each
pair as `key=value`, joined by `&`. -/
def urlencodeL (pairs : List (List Char × List Char)) : List Char :=
  match pairs with
  | [] => []
  | p :: ps =>
    (quotePlusL p.1 ++ '=' :: quotePlusL p.2)
      ++ ps.flatMap (fun p' => '&' :: (quotePlusL p'.1 ++ '=' :: quotePlusL p'.2))

/-! ## `_clean_youtube_url` -/

/-- The allow-list of query parameters kept by `_clean_youtube_url`. -/
def essentialParams : List (List Char) :=
  ["v".data, "list".data, "t".data, "index".data, "pp".data]

/-- Membership in the allow-list. -/
def isEssential (k : List Char) : Bool := essentialParams.contains k

/-- The `cleaned_params` dictionary: for each parameter of the parsed
query, in first-occurrence order, keep its first value when it is
allow-listed (a parameter with an empty value list never arises with
`keep_blank_values=False`). -/
def cleanedParams (q : List Char) : List (List Char × List Char) :=
  (parseQs q).filterMap fun kv =>
    match kv with
    | (k, v0 :: _) => if isEssential k then some (k, v0) else none
    | (_, []) => none

/-- `'youtube.com' in netloc or 'youtu.be' in netloc`. -/
def isYTNetloc (netloc : List Char) : Bool :=
  containsSub "youtube.com".data netloc || containsSub "youtu.be".data netloc

/-- Model of `_clean_youtube_url`: parse; non-YouTube hosts (and inputs on
which `urlparse` raises) pass through unchanged; otherwise the query is
rebuilt from the allow-listed parameters and the URL reassembled. -/
def cleanYoutubeUrlL (url : List Char) : List Char :=
  match urlparseL url with
  | none => url
  | some p =>
    if ¬ isYTNetloc p.netloc then url
    else urlunparseL ⟨p.scheme, p.netloc, p.path, p.params,
        urlencodeL (cleanedParams p.query), p.fragment⟩

/-- `_clean_youtube_url` on strings. -/
def cleanYoutubeUrl (url : String) : String := ⟨cleanYoutubeUrlL url.data⟩

/-! ## Splitter lemmas -/

theorem splitAtFirstChar_eq_some {sep : Char} {l a b : List Char}
    (h : splitAtFirstChar sep l = some (a, b)) :
    l = a ++ sep :: b ∧ sep ∉ a := by
  induction l generalizing a with
  | nil => simp [splitAtFirstChar] at h
  | cons c rest ih =>
    by_cases hc : c = sep
    · subst hc
      simp [splitAtFirstChar] at h
      obtain ⟨h1, h2⟩ := h
      subst h1; subst h2; simp
    · simp only [splitAtFirstChar, if_neg hc] at h
      cases hrec : splitAtFirstChar sep rest with
      | none => rw [hrec] at h; simp at h
      | some ab =>
        rw [hrec] at h
        simp at h
        obtain ⟨ha, hb⟩ := h
        obtain ⟨h1, h2⟩ := ih (a := ab.1) (by rw [hrec, ← hb])
        subst ha
        constructor
        · simp [h1, hb]
        · simp [List.mem_cons]
          exact ⟨fun he => hc he.symm, h2⟩

theorem splitAtFirstChar_eq_none {sep : Char} {l : List Char}
    (h : splitAtFirstChar sep l = none) : sep ∉ l := by
  induction l with
  | nil => simp
  | cons c rest ih =>
    by_cases hc : c = sep
    · subst hc; simp [splitAtFirstChar] at h
    · simp only [splitAtFirstChar, if_neg hc] at h
      cases hrec : splitAtFirstChar sep rest with
      | none =>
        simp [List.mem_cons]
        exact ⟨fun he => hc he.symm, ih hrec⟩
      | some ab => rw [hrec] at h; simp at h

theorem splitAtFirstChar_append {sep : Char} {a : List Char} (b : List Char)
    (ha : sep ∉ a) : splitAtFirstChar sep (a ++ sep :: b) = some (a, b) := by
  induction a with
  | nil => simp [splitAtFirstChar]
  | cons c rest ih =>
    have hc : ¬ c = sep := by
      intro he; exact ha (by simp [he])
    have hrest : sep ∉ rest := fun hm => ha (by simp [hm])
    simp only [List.cons_append, splitAtFirstChar, if_neg hc, List.append_eq]
    rw [ih hrest]

theorem splitAtFirstChar_of_not_mem {sep : Char} {l : List Char}
    (h : sep ∉ l) : splitAtFirstChar sep l = none := by
  induction l with
  | nil => rfl
  | cons c rest ih =>
    have hc : ¬ c = sep := by
      intro he; exact h (by simp [he])
    have hrest : sep ∉ rest := fun hm => h (by simp [hm])
    simp only [splitAtFirstChar, if_neg hc, ih hrest]

theorem splitAtLastChar_append {sep : Char} (a : List Char) {b : List Char}
    (hb : sep ∉ b) : splitAtLastChar sep (a ++ sep :: b) = some (a, b) := by
  have hrev : (a ++ sep :: b).reverse = b.reverse ++ sep :: a.reverse := by
    simp
  have hbrev : sep ∉ b.reverse := by simpa using hb
  simp [splitAtLastChar, hrev, splitAtFirstChar_append _ hbrev]

theorem splitAtLastChar_of_not_mem {sep : Char} {l : List Char}
    (h : sep ∉ l) : splitAtLastChar sep l = none := by
  have : sep ∉ l.reverse := by simpa using h
  simp [splitAtLastChar, splitAtFirstChar_of_not_mem this]

theorem splitAtLastChar_eq_some {sep : Char} {l a b : List Char}
    (h : splitAtLastChar sep l = some (a, b)) :
    l = a ++ sep :: b ∧ sep ∉ b := by
  unfold splitAtLastChar at h
  cases hf : splitAtFirstChar sep l.reverse with
  | none => rw [hf] at h; simp at h
  | some ab =>
    rw [hf] at h
    simp at h
    obtain ⟨h1, h2⟩ := splitAtFirstChar_eq_some (a := ab.1) (b := ab.2)
      (by rw [hf])
    obtain ⟨ha, hb⟩ := h
    have hl : l = ab.2.reverse ++ sep :: ab.1.reverse := by
      have := congrArg List.reverse h1
      simpa using this
    subst ha hb
    constructor
    · simpa using hl
    · simpa using h2

/-! ## Character-level facts -/

theorem charLe_iff (c d : Char) : (c ≤ d) ↔ c.toNat ≤ d.toNat :=
  ⟨fun h => h, fun h => h⟩

theorem charEq_of_toNat {c d : Char} (h : c.toNat = d.toNat) : c = d := by
  apply Char.ext
  apply UInt32.eq_of_toBitVec_eq
  apply BitVec.eq_of_toNat_eq
  exact h

theorem charToNat_ofNat (n : Nat) (h : n.isValidChar) :
    (Char.ofNat n).toNat = n := by
  unfold Char.ofNat
  rw [dif_pos h]
  rfl

theorem charToNat_lt (c : Char) : c.toNat < 1114112 := by
  have h := c.valid
  simp only [UInt32.isValidChar, Nat.isValidChar] at h
  show c.val.toNat < _
  omega

theorem charToNat_not_surrogate (c : Char) :
    ¬ (55296 ≤ c.toNat ∧ c.toNat ≤ 57343) := by
  have h := c.valid
  simp only [UInt32.isValidChar, Nat.isValidChar] at h
  show ¬ (55296 ≤ c.val.toNat ∧ c.val.toNat ≤ 57343)
  omega

theorem lowerChar_toNat (c : Char) :
    (lowerChar c).toNat
      = if 65 ≤ c.toNat ∧ c.toNat ≤ 90 then c.toNat + 32 else c.toNat := by
  unfold lowerChar
  by_cases h : 'A' ≤ c ∧ c ≤ 'Z'
  · have h1 : 65 ≤ c.toNat := (charLe_iff 'A' c).mp h.1
    have h2 : c.toNat ≤ 90 := (charLe_iff c 'Z').mp h.2
    rw [if_pos h, if_pos ⟨h1, h2⟩]
    exact charToNat_ofNat _ (Or.inl (by omega))
  · rw [if_neg h, if_neg]
    intro hc
    exact h ⟨(charLe_iff 'A' c).mpr hc.1, (charLe_iff c 'Z').mpr hc.2⟩

theorem lowerChar_idem (c : Char) : lowerChar (lowerChar c) = lowerChar c := by
  apply charEq_of_toNat
  rw [lowerChar_toNat, lowerChar_toNat]
  by_cases hq : 65 ≤ c.toNat ∧ c.toNat ≤ 90
  · rw [if_pos hq, if_neg (by omega)]
  · rw [if_neg hq, if_neg hq]

theorem lowerL_idem (l : List Char) : lowerL (lowerL l) = lowerL l := by
  unfold lowerL
  rw [List.map_map]
  exact List.map_congr_left fun c _ => lowerChar_idem c

theorem isAlpha_iff (c : Char) :
    c.isAlpha = true
      ↔ (65 ≤ c.toNat ∧ c.toNat ≤ 90) ∨ (97 ≤ c.toNat ∧ c.toNat ≤ 122) := by
  simp only [Char.isAlpha, Char.isUpper, Char.isLower, Bool.or_eq_true,
    Bool.and_eq_true, decide_eq_true_eq]
  constructor
  · rintro (⟨h1, h2⟩ | ⟨h1, h2⟩)
    · exact Or.inl ⟨h1, h2⟩
    · exact Or.inr ⟨h1, h2⟩
  · rintro (⟨h1, h2⟩ | ⟨h1, h2⟩)
    · exact Or.inl ⟨h1, h2⟩
    · exact Or.inr ⟨h1, h2⟩

theorem isDigit_iff (c : Char) :
    c.isDigit = true ↔ 48 ≤ c.toNat ∧ c.toNat ≤ 57 := by
  simp only [Char.isDigit, Bool.and_eq_true, decide_eq_true_eq]
  constructor
  · rintro ⟨h1, h2⟩
    exact ⟨h1, h2⟩
  · rintro ⟨h1, h2⟩
    exact ⟨h1, h2⟩

theorem charEq_iff_toNat (c d : Char) : c = d ↔ c.toNat = d.toNat :=
  ⟨fun h => h ▸ rfl, charEq_of_toNat⟩

theorem lowerChar_isAlpha {c : Char} (h : c.isAlpha = true) :
    (lowerChar c).isAlpha = true := by
  rw [isAlpha_iff] at h ⊢
  rw [lowerChar_toNat]
  by_cases hq : 65 ≤ c.toNat ∧ c.toNat ≤ 90
  · rw [if_pos hq]; omega
  · rw [if_neg hq]; omega

theorem schemeChar_iff (c : Char) :
    schemeChar c = true
      ↔ (65 ≤ c.toNat ∧ c.toNat ≤ 90) ∨ (97 ≤ c.toNat ∧ c.toNat ≤ 122)
        ∨ (48 ≤ c.toNat ∧ c.toNat ≤ 57) ∨ c.toNat = 43 ∨ c.toNat = 45
        ∨ c.toNat = 46 := by
  unfold schemeChar
  simp only [Bool.or_eq_true, decide_eq_true_eq, isAlpha_iff, isDigit_iff,
    charEq_iff_toNat]
  simp only [show ('+').toNat = 43 from rfl, show ('-').toNat = 45 from rfl,
    show ('.').toNat = 46 from rfl]
  tauto

theorem lowerChar_schemeChar {c : Char} (h : schemeChar c = true) :
    schemeChar (lowerChar c) = true := by
  rw [schemeChar_iff] at h ⊢
  rw [lowerChar_toNat]
  by_cases hq : 65 ≤ c.toNat ∧ c.toNat ≤ 90
  · rw [if_pos hq]; omega
  · rw [if_neg hq]; omega

theorem schemeChar_ne_colon {c : Char} (h : schemeChar c = true) : c ≠ ':' := by
  rw [schemeChar_iff] at h
  rw [Ne, charEq_iff_toNat]
  simp only [show (':').toNat = 58 from rfl]
  omega

theorem isAlpha_not_c0 {c : Char} (h : c.isAlpha = true) :
    isC0OrSpace c = false := by
  rw [isAlpha_iff] at h
  unfold isC0OrSpace
  simp only [decide_eq_false_iff_not]
  omega

theorem isTRN_iff (c : Char) :
    isTRN c = true ↔ c.toNat = 9 ∨ c.toNat = 10 ∨ c.toNat = 13 := by
  unfold isTRN
  simp only [Bool.or_eq_true, decide_eq_true_eq]
  rw [charEq_iff_toNat, charEq_iff_toNat, charEq_iff_toNat]
  simp only [show ('\t').toNat = 9 from rfl, show ('\n').toNat = 10 from rfl,
    show ('\r').toNat = 13 from rfl]
  tauto

theorem lowerChar_not_trn (c : Char) : isTRN (lowerChar c) = isTRN c := by
  by_cases hq : 65 ≤ c.toNat ∧ c.toNat ≤ 90
  · have h1 : isTRN (lowerChar c) = false := by
      rw [← Bool.not_eq_true, isTRN_iff, lowerChar_toNat, if_pos hq]
      omega
    have h2 : isTRN c = false := by
      rw [← Bool.not_eq_true, isTRN_iff]
      omega
    rw [h1, h2]
  · have : lowerChar c = c := by
      apply charEq_of_toNat
      rw [lowerChar_toNat, if_neg hq]
    rw [this]

theorem takeWhile_append_all {p : Char → Bool} {a : List Char}
    (b : List Char) (ha : ∀ c ∈ a, p c = true) :
    (a ++ b).takeWhile p = a ++ b.takeWhile p := by
  induction a with
  | nil => simp
  | cons c rest ih =>
    have hc := ha c (by simp)
    simp [List.takeWhile_cons, hc, ih fun d hd => ha d (by simp [hd])]

theorem dropWhile_append_all {p : Char → Bool} {a : List Char}
    (b : List Char) (ha : ∀ c ∈ a, p c = true) :
    (a ++ b).dropWhile p = b.dropWhile p := by
  induction a with
  | nil => simp
  | cons c rest ih =>
    have hc := ha c (by simp)
    simp [List.dropWhile_cons, hc, ih fun d hd => ha d (by simp [hd])]

/-! ## Stage lemmas for `urlsplit` / `urlparse` -/

theorem splitOn1_append {sep : Char} {a : List Char} (b : List Char)
    (ha : sep ∉ a) : splitOn1 sep (a ++ sep :: b) = (a, b) := by
  simp [splitOn1, splitAtFirstChar_append b ha]

theorem splitOn1_of_not_mem {sep : Char} {v : List Char} (h : sep ∉ v) :
    splitOn1 sep v = (v, []) := by
  simp [splitOn1, splitAtFirstChar_of_not_mem h]

theorem splitOn1_not_mem_fst (sep : Char) (v : List Char) :
    sep ∉ (splitOn1 sep v).1 := by
  unfold splitOn1
  cases hf : splitAtFirstChar sep v with
  | none => exact splitAtFirstChar_eq_none hf
  | some ab => exact (splitAtFirstChar_eq_some (a := ab.1) (b := ab.2)
      (by rw [hf])).2

theorem splitOn1_mem {sep : Char} {v : List Char} :
    (∀ c ∈ (splitOn1 sep v).1, c ∈ v) ∧ (∀ c ∈ (splitOn1 sep v).2, c ∈ v) := by
  unfold splitOn1
  cases hf : splitAtFirstChar sep v with
  | none => exact ⟨fun c hc => hc, fun c hc => by simp at hc⟩
  | some ab =>
    obtain ⟨hv, _⟩ := splitAtFirstChar_eq_some (a := ab.1) (b := ab.2)
      (by rw [hf])
    subst hv
    exact ⟨fun c hc => by simp [hc], fun c hc => by simp [hc]⟩

theorem splitOn1_cons_ne {sep c : Char} (w : List Char) (h : ¬ c = sep) :
    splitOn1 sep (c :: w) = (c :: (splitOn1 sep w).1, (splitOn1 sep w).2) := by
  unfold splitOn1
  simp only [splitAtFirstChar, if_neg h]
  cases hf : splitAtFirstChar sep w with
  | none => rfl
  | some ab => rfl

theorem splitOn1_cons_eq (sep : Char) (w : List Char) :
    splitOn1 sep (sep :: w) = ([], w) := by
  simp [splitOn1, splitAtFirstChar]

theorem splitNetloc_mem {v : List Char} :
    (∀ c ∈ (splitNetloc v).1, c ∈ v) ∧ (∀ c ∈ (splitNetloc v).2, c ∈ v) := by
  unfold splitNetloc
  by_cases h : startsAt ['/', '/'] v = true
  · rw [if_pos h]
    constructor
    · intro c hc
      have h1 := (List.takeWhile_prefix (l := v.drop 2)
          (p := fun c => ! netlocDelim c)).subset hc
      exact List.drop_subset 2 v h1
    · intro c hc
      have h1 := (List.dropWhile_suffix (l := v.drop 2)
          (p := fun c => ! netlocDelim c)).subset hc
      exact List.drop_subset 2 v h1
  · rw [if_neg h]
    exact ⟨fun c hc => by simp at hc, fun c hc => hc⟩

theorem splitNetloc_fst_delim (v : List Char) :
    ∀ c ∈ (splitNetloc v).1, netlocDelim c = false := by
  unfold splitNetloc
  by_cases h : startsAt ['/', '/'] v = true
  · rw [if_pos h]
    intro c hc
    have := List.mem_takeWhile_imp hc
    simpa using this
  · rw [if_neg h]
    intro c hc
    simp at hc

theorem splitNetloc_of_append {netloc : List Char} (tl : List Char)
    (hnd : ∀ c ∈ netloc, netlocDelim c = false)
    (htl : tl = [] ∨ ∃ d tl', tl = d :: tl' ∧ netlocDelim d = true) :
    splitNetloc ('/' :: '/' :: (netloc ++ tl)) = (netloc, tl) := by
  have hall : ∀ c ∈ netloc, (fun c => ! netlocDelim c) c = true := by
    intro c hc; simp [hnd c hc]
  unfold splitNetloc
  rw [if_pos (by simp [startsAt])]
  simp only [List.drop_succ_cons, List.drop_zero]
  rcases htl with rfl | ⟨d, tl', rfl, hd⟩
  · rw [takeWhile_append_all [] hall, dropWhile_append_all [] hall]
    simp
  · rw [takeWhile_append_all _ hall, dropWhile_append_all _ hall]
    simp [List.takeWhile_cons, List.dropWhile_cons, hd]

/-- Reverse direction for `splitAtLastChar`. -/
theorem splitAtLastChar_eq_none {sep : Char} {l : List Char}
    (h : splitAtLastChar sep l = none) : sep ∉ l := by
  unfold splitAtLastChar at h
  cases hf : splitAtFirstChar sep l.reverse with
  | some ab => rw [hf] at h; simp at h
  | none =>
    have := splitAtFirstChar_eq_none hf
    simpa using this

theorem dropWhile_shape (p : Char → Bool) (l : List Char) :
    l.dropWhile p = [] ∨ ∃ d w, l.dropWhile p = d :: w ∧ p d = false := by
  induction l with
  | nil => left; rfl
  | cons c rest ih =>
    by_cases hc : p c = true
    · rw [List.dropWhile_cons, if_pos hc]
      exact ih
    · right
      refine ⟨c, rest, ?_, by simpa using hc⟩
      rw [List.dropWhile_cons, if_neg hc]

theorem netlocDelim_cases {d : Char} (h : netlocDelim d = true) :
    d = '/' ∨ d = '?' ∨ d = '#' := by
  unfold netlocDelim at h
  simp only [Bool.or_eq_true, decide_eq_true_eq] at h
  tauto

theorem stripUrl_no_trn (u : List Char) :
    ∀ c ∈ stripUrl u, isTRN c = false := by
  intro c hc
  have := List.of_mem_filter hc
  simpa using this

/-- `splitScheme` on text starting with a slash never extracts a
scheme. -/
theorem splitScheme_slash (w : List Char) :
    splitScheme ('/' :: w) = ([], '/' :: w) := by
  unfold splitScheme
  cases hf : splitAtFirstChar ':' ('/' :: w) with
  | none => rfl
  | some ab =>
    obtain ⟨pre, post⟩ := ab
    obtain ⟨hu, hna⟩ := splitAtFirstChar_eq_some hf
    cases pre with
    | nil =>
      simp at hu
    | cons c0 t =>
      have hc0 : c0 = '/' := by
        have := congrArg (fun l => l.head?) hu
        simpa using this.symm
      subst hc0
      dsimp only
      rw [if_neg]
      intro hcond
      exact absurd hcond.1 (by decide)

/-- `splitScheme` recovers a well-formed lower-case scheme. -/
theorem splitScheme_valid {scheme : List Char} (rest : List Char)
    (hcolon : ':' ∉ scheme)
    (halpha : ∃ c0 t, scheme = c0 :: t ∧ c0.isAlpha = true)
    (hall : ∀ c ∈ scheme, schemeChar c = true)
    (hlower : lowerL scheme = scheme) :
    splitScheme (scheme ++ ':' :: rest) = (scheme, rest) := by
  unfold splitScheme
  rw [splitAtFirstChar_append rest hcolon]
  obtain ⟨c0, t, rfl, ha⟩ := halpha
  dsimp only
  rw [if_pos ⟨ha, List.all_eq_true.mpr fun c hc => hall c hc⟩, hlower]

/-- Case analysis on `splitScheme`. -/
theorem splitScheme_cases (u : List Char) :
    splitScheme u = ([], u)
    ∨ ∃ pre post, u = pre ++ ':' :: post ∧ ':' ∉ pre
        ∧ (∃ c0 t, pre = c0 :: t ∧ c0.isAlpha = true)
        ∧ (∀ c ∈ pre, schemeChar c = true)
        ∧ splitScheme u = (lowerL pre, post) := by
  unfold splitScheme
  cases hf : splitAtFirstChar ':' u with
  | none => left; rfl
  | some ab =>
    obtain ⟨pre, post⟩ := ab
    obtain ⟨hu, hna⟩ := splitAtFirstChar_eq_some hf
    cases pre with
    | nil => left; rfl
    | cons c0 t =>
      by_cases hcond : (c0.isAlpha = true) ∧ (c0 :: t).all schemeChar = true
      · right
        refine ⟨c0 :: t, post, hu, hna, ⟨c0, t, rfl, hcond.1⟩,
          fun c hc => List.all_eq_true.mp hcond.2 c hc, ?_⟩
        dsimp only
        rw [if_pos ⟨hcond.1, hcond.2⟩]
      · left
        dsimp only
        rw [if_neg]
        intro hc
        exact hcond ⟨hc.1, hc.2⟩

/-- The suffix relation between the split (path, params) and the original
path-with-params text: re-joining gives back the text up to a possibly
dropped trailing `;`. -/
theorem splitparams_prefix {pw path params : List Char}
    (h : splitparamsL pw = (path, params)) :
    pw = joinParams path params ∨ pw = joinParams path params ++ [';'] := by
  unfold splitparamsL at h
  cases hsl : splitAtLastChar '/' pw with
  | some ba =>
    obtain ⟨before, after⟩ := ba
    rw [hsl] at h
    dsimp only at h
    obtain ⟨hpw, hna⟩ := splitAtLastChar_eq_some hsl
    cases hsf : splitAtFirstChar ';' after with
    | some xb =>
      obtain ⟨x, b⟩ := xb
      rw [hsf] at h
      obtain ⟨hafter, hnx⟩ := splitAtFirstChar_eq_some hsf
      rw [Prod.mk.injEq] at h
      obtain ⟨hpath, hparams⟩ := h
      subst hpath hparams
      cases b with
      | nil =>
        right
        unfold joinParams
        rw [if_pos (by simp)]
        rw [hpw, hafter]
        simp
      | cons q qs =>
        left
        unfold joinParams
        rw [if_neg (by simp)]
        rw [hpw, hafter]
        simp
    | none =>
      rw [hsf] at h
      rw [Prod.mk.injEq] at h
      obtain ⟨hpath, hparams⟩ := h
      subst hpath hparams
      left
      unfold joinParams
      rw [if_pos (by simp)]
  | none =>
    rw [hsl] at h
    dsimp only at h
    cases hsf : splitAtFirstChar ';' pw with
    | some ab =>
      obtain ⟨x, b⟩ := ab
      rw [hsf] at h
      obtain ⟨hpw, hnsemi⟩ := splitAtFirstChar_eq_some hsf
      rw [Prod.mk.injEq] at h
      obtain ⟨hpath, hparams⟩ := h
      subst hpath hparams
      cases b with
      | nil =>
        right
        unfold joinParams
        rw [if_pos (by simp)]
        rw [hpw]
      | cons q qs =>
        left
        unfold joinParams
        rw [if_neg (by simp)]
        rw [hpw]
    | none =>
      rw [hsf] at h
      rw [Prod.mk.injEq] at h
      obtain ⟨hpath, hparams⟩ := h
      subst hpath hparams
      left
      unfold joinParams
      rw [if_pos (by simp)]

/-- `_splitparams` round trip: re-joining the path and params and
splitting again recovers them. -/
theorem splitparams_join {pw path params : List Char}
    (h : splitparamsL pw = (path, params)) :
    splitparamsL (joinParams path params) = (path, params) := by
  unfold splitparamsL at h
  cases hsl : splitAtLastChar '/' pw with
  | some ba =>
    obtain ⟨before, after⟩ := ba
    rw [hsl] at h
    dsimp only at h
    obtain ⟨hpw, hna⟩ := splitAtLastChar_eq_some hsl
    cases hsf : splitAtFirstChar ';' after with
    | some xb =>
      obtain ⟨x, b⟩ := xb
      rw [hsf] at h
      obtain ⟨hafter, hnx⟩ := splitAtFirstChar_eq_some hsf
      rw [Prod.mk.injEq] at h
      obtain ⟨hpath, hparams⟩ := h
      subst hpath hparams
      have hsx : '/' ∉ x := fun hm => hna (by rw [hafter]; simp [hm])
      have hsb : '/' ∉ b := fun hm => hna (by rw [hafter]; simp [hm])
      cases b with
      | nil =>
        unfold joinParams
        rw [if_pos (by simp)]
        unfold splitparamsL
        rw [splitAtLastChar_append before hsx]
        dsimp only
        rw [splitAtFirstChar_of_not_mem hnx]
      | cons q qs =>
        unfold joinParams
        rw [if_neg (by simp)]
        have h1 : '/' ∉ x ++ ';' :: q :: qs := by
          intro hm
          rcases List.mem_append.mp hm with hm1 | hm2
          · exact hsx hm1
          · rcases List.mem_cons.mp hm2 with hm3 | hm4
            · exact absurd hm3 (by decide)
            · exact hsb hm4
        unfold splitparamsL
        rw [List.append_assoc, List.cons_append, splitAtLastChar_append before h1]
        dsimp only
        rw [splitAtFirstChar_append (q :: qs) hnx]
    | none =>
      rw [hsf] at h
      rw [Prod.mk.injEq] at h
      obtain ⟨hpath, hparams⟩ := h
      subst hpath hparams
      unfold joinParams
      rw [if_pos (by simp)]
      unfold splitparamsL
      rw [hsl]
      dsimp only
      rw [hsf]
  | none =>
    rw [hsl] at h
    dsimp only at h
    have hns : '/' ∉ pw := splitAtLastChar_eq_none hsl
    cases hsf : splitAtFirstChar ';' pw with
    | some ab =>
      obtain ⟨x, b⟩ := ab
      rw [hsf] at h
      obtain ⟨hpw, hnsemi⟩ := splitAtFirstChar_eq_some hsf
      rw [Prod.mk.injEq] at h
      obtain ⟨hpath, hparams⟩ := h
      subst hpath hparams
      have hsa : '/' ∉ x := fun hm => hns (by rw [hpw]; simp [hm])
      have hsb : '/' ∉ b := fun hm => hns (by rw [hpw]; simp [hm])
      cases b with
      | nil =>
        unfold joinParams
        rw [if_pos (by simp)]
        unfold splitparamsL
        rw [splitAtLastChar_of_not_mem hsa]
        dsimp only
        rw [splitAtFirstChar_of_not_mem hnsemi]
      | cons q qs =>
        unfold joinParams
        rw [if_neg (by simp)]
        have h1 : '/' ∉ x ++ ';' :: q :: qs := by
          intro hm
          rcases List.mem_append.mp hm with hm1 | hm2
          · exact hsa hm1
          · rcases List.mem_cons.mp hm2 with hm3 | hm4
            · exact absurd hm3 (by decide)
            · exact hsb hm4
        unfold splitparamsL
        rw [splitAtLastChar_of_not_mem h1]
        dsimp only
        rw [splitAtFirstChar_append (q :: qs) hnsemi]
    | none =>
      rw [hsf] at h
      rw [Prod.mk.injEq] at h
      obtain ⟨hpath, hparams⟩ := h
      subst hpath hparams
      unfold joinParams
      rw [if_pos (by simp)]
      unfold splitparamsL
      rw [hsl]
      dsimp only
      rw [hsf]

/-! ## Parse characterization and invariants -/

/-- The path-with-params component computed by `urlsplit`. -/
def pwOf (u : List Char) : List Char :=
  (splitOn1 '?' (splitOn1 '#' (splitNetloc (splitScheme (stripUrl u)).2).2).1).1

/-- Successful `urlsplit` determines every component. -/
theorem urlsplitL_some {u : List Char} {s : SplitParts}
    (h : urlsplitL u = some s) :
    bracketsBad (splitNetloc (splitScheme (stripUrl u)).2).1 = false ∧
    s = ⟨(splitScheme (stripUrl u)).1,
         (splitNetloc (splitScheme (stripUrl u)).2).1,
         pwOf u,
         (splitOn1 '?' (splitOn1 '#' (splitNetloc
             (splitScheme (stripUrl u)).2).2).1).2,
         (splitOn1 '#' (splitNetloc (splitScheme (stripUrl u)).2).2).2⟩ := by
  unfold urlsplitL at h
  dsimp only at h
  by_cases hbr : bracketsBad (splitNetloc (splitScheme (stripUrl u)).2).1 = true
  · rw [if_pos hbr] at h
    simp at h
  · rw [if_neg hbr] at h
    refine ⟨by simpa using hbr, ?_⟩
    have := Option.some.inj h
    rw [← this]
    rfl

/-- Every component of a successful `urlsplit` is free of tab, newline
and carriage return. -/
theorem urlsplitL_no_trn {u : List Char} {s : SplitParts}
    (h : urlsplitL u = some s) :
    (∀ c ∈ s.scheme, isTRN c = false) ∧ (∀ c ∈ s.netloc, isTRN c = false) ∧
    (∀ c ∈ s.path, isTRN c = false) ∧ (∀ c ∈ s.query, isTRN c = false) ∧
    (∀ c ∈ s.fragment, isTRN c = false) := by
  obtain ⟨-, hs⟩ := urlsplitL_some h
  subst hs
  have hu1 := stripUrl_no_trn u
  have hsp2 : ∀ c ∈ (splitScheme (stripUrl u)).2, isTRN c = false := by
    rcases splitScheme_cases (stripUrl u) with hc | ⟨pre, post, hdec, -, -, -, hc⟩
    · rw [hc]; exact hu1
    · rw [hc]
      intro c hcm
      exact hu1 c (by rw [hdec]; simp [hcm])
  have hnl2 : ∀ c ∈ (splitNetloc (splitScheme (stripUrl u)).2).2,
      isTRN c = false :=
    fun c hc => hsp2 c (splitNetloc_mem.2 c hc)
  have hfr1 : ∀ c ∈ (splitOn1 '#' (splitNetloc
      (splitScheme (stripUrl u)).2).2).1, isTRN c = false :=
    fun c hc => hnl2 c (splitOn1_mem.1 c hc)
  refine ⟨?_, ?_, ?_, ?_, ?_⟩
  · rcases splitScheme_cases (stripUrl u) with hc | ⟨pre, post, hdec, -, -, -, hc⟩
    · rw [hc]; intro c hcm; simp at hcm
    · rw [hc]
      intro c hcm
      dsimp only at hcm
      obtain ⟨d, hd, rfl⟩ := List.mem_map.mp hcm
      rw [lowerChar_not_trn]
      exact hu1 d (by rw [hdec]; simp [hd])
  · exact fun c hc => hsp2 c (splitNetloc_mem.1 c hc)
  · exact fun c hc => hfr1 c (splitOn1_mem.1 c hc)
  · exact fun c hc => hfr1 c (splitOn1_mem.2 c hc)
  · exact fun c hc => hnl2 c (splitOn1_mem.2 c hc)

/-- Structural invariants of a successful `urlsplit`. -/
theorem urlsplitL_inv {u : List Char} {s : SplitParts}
    (h : urlsplitL u = some s) :
    (s.scheme = [] ∨ ((∃ c0 t, s.scheme = c0 :: t ∧ c0.isAlpha = true)
        ∧ (∀ c ∈ s.scheme, schemeChar c = true) ∧ lowerL s.scheme = s.scheme
        ∧ ':' ∉ s.scheme)) ∧
    (∀ c ∈ s.netloc, netlocDelim c = false) ∧
    bracketsBad s.netloc = false ∧
    '#' ∉ s.path ∧ '?' ∉ s.path ∧ '#' ∉ s.query ∧
    (s.netloc ≠ [] → s.path = [] ∨ ∃ w, s.path = '/' :: w) := by
  obtain ⟨hbr, hs⟩ := urlsplitL_some h
  subst hs
  refine ⟨?_, ?_, hbr, ?_, ?_, ?_, ?_⟩
  · rcases splitScheme_cases (stripUrl u) with hc | ⟨pre, post, hdec, -,
      ⟨c0, t, hpre, hc0⟩, hall, hc⟩
    · rw [hc]; left; rfl
    · rw [hc]
      right
      dsimp only
      refine ⟨⟨lowerChar c0, lowerL t, by rw [hpre]; rfl, lowerChar_isAlpha hc0⟩,
        ?_, lowerL_idem pre, ?_⟩
      · intro c hcm
        obtain ⟨d, hd, rfl⟩ := List.mem_map.mp hcm
        exact lowerChar_schemeChar (hall d hd)
      · intro hcm
        obtain ⟨d, hd, hdc⟩ := List.mem_map.mp hcm
        exact schemeChar_ne_colon (lowerChar_schemeChar (hall d hd)) hdc
  · exact splitNetloc_fst_delim _
  · exact fun hm => splitOn1_not_mem_fst '#' _ (splitOn1_mem.1 '#' hm)
  · exact splitOn1_not_mem_fst '?' _
  · exact fun hm => splitOn1_not_mem_fst '#' _ (splitOn1_mem.2 '#' hm)
  · intro hne
    dsimp only at hne ⊢
    unfold pwOf
    unfold splitNetloc at hne ⊢
    by_cases hst : startsAt ['/', '/'] (splitScheme (stripUrl u)).2 = true
    · rw [if_pos hst] at hne ⊢
      dsimp only at hne ⊢
      rcases dropWhile_shape (fun c => ! netlocDelim c)
          (((splitScheme (stripUrl u)).2).drop 2) with hdw | ⟨d, w, hdw, hd⟩
      · rw [hdw]
        left
        rw [splitOn1_of_not_mem (by decide), splitOn1_of_not_mem (by decide)]
      · rw [hdw]
        have hd' : netlocDelim d = true := by simpa using hd
        rcases netlocDelim_cases hd' with rfl | rfl | rfl
        · right
          rw [splitOn1_cons_ne w (by decide)]
          dsimp only
          rw [splitOn1_cons_ne (splitOn1 '#' w).1 (by decide)]
          exact ⟨(splitOn1 '?' ((splitOn1 '#' w).1)).1, rfl⟩
        · left
          rw [splitOn1_cons_ne w (by decide)]
          dsimp only
          rw [splitOn1_cons_eq '?' (splitOn1 '#' w).1]
        · left
          rw [splitOn1_cons_eq '#' w]
          dsimp only
          rw [splitOn1_of_not_mem (by decide)]
    · rw [if_neg hst] at hne
      simp at hne

/-! ## Unparse-then-parse round trip -/

/-- Normal form of `urlunparse` output when a netloc is present and the
path-with-params is empty or absolute. -/
theorem urlunparseL_shape (p : UrlParts)
    (hnet : p.netloc ≠ [])
    (hjp : joinParams p.path p.params = []
        ∨ ∃ w, joinParams p.path p.params = '/' :: w) :
    urlunparseL p
      = (if p.scheme.isEmpty then [] else p.scheme ++ [':'])
        ++ '/' :: '/' :: (p.netloc ++ (joinParams p.path p.params
          ++ ((if p.query.isEmpty then [] else '?' :: p.query)
            ++ (if p.fragment.isEmpty then [] else '#' :: p.fragment)))) := by
  unfold urlunparseL urlunsplitL
  have hne' : p.netloc.isEmpty = false := by
    cases hn : p.netloc with
    | nil => exact absurd hn hnet
    | cons a l => rfl
  have hadj : (match joinParams p.path p.params with
      | [] => ([] : List Char)
      | c :: _ => if c ≠ '/' then '/' :: joinParams p.path p.params
          else joinParams p.path p.params) = joinParams p.path p.params := by
    rcases hjp with hjp0 | ⟨w, hjpw⟩
    · rw [hjp0]
    · rw [hjpw]
      dsimp only
      rw [if_neg (by simp)]
  dsimp only
  rw [hne']
  simp only [Bool.false_eq_true, not_false_eq_true, true_or, if_true, hadj]
  by_cases hs : p.scheme.isEmpty
  · by_cases hq : p.query.isEmpty
    · by_cases hf : p.fragment.isEmpty
      · simp [hs, hq, hf, List.append_assoc]
      · simp [hs, hq, hf, List.append_assoc]
    · by_cases hf : p.fragment.isEmpty
      · simp [hs, hq, hf, List.append_assoc]
      · simp [hs, hq, hf, List.append_assoc]
  · by_cases hq : p.query.isEmpty
    · by_cases hf : p.fragment.isEmpty
      · simp [hs, hq, hf, List.append_assoc]
      · simp [hs, hq, hf, List.append_assoc]
    · by_cases hf : p.fragment.isEmpty
      · simp [hs, hq, hf, List.append_assoc]
      · simp [hs, hq, hf, List.append_assoc]

/-- `stripUrl` is the identity on text with no tab/newline/CR whose first
character is not a control or space. -/
theorem stripUrl_id {l : List Char} (htrn : ∀ c ∈ l, isTRN c = false)
    (hhead : l = [] ∨ ∃ c t, l = c :: t ∧ isC0OrSpace c = false) :
    stripUrl l = l := by
  unfold stripUrl
  have hdrop : l.dropWhile isC0OrSpace = l := by
    rcases hhead with rfl | ⟨c, t, rfl, hc⟩
    · rfl
    · rw [List.dropWhile_cons, if_neg (by simp [hc])]
  rw [hdrop, List.filter_eq_self.mpr fun c hc => by simp [htrn c hc]]

/-- Parsing the serialization of well-formed parts recovers them
(CPython's `urlparse(urlunparse(p)) == p` on parser-produced parts). -/
theorem urlparse_unparse {p : UrlParts}
    (hnet : p.netloc ≠ [])
    (hscheme : p.scheme = []
        ∨ ((∃ c0 t, p.scheme = c0 :: t ∧ c0.isAlpha = true)
          ∧ (∀ c ∈ p.scheme, schemeChar c = true)
          ∧ lowerL p.scheme = p.scheme ∧ ':' ∉ p.scheme))
    (hnd : ∀ c ∈ p.netloc, netlocDelim c = false)
    (hbr : bracketsBad p.netloc = false)
    (hjpq : '?' ∉ joinParams p.path p.params)
    (hjph : '#' ∉ joinParams p.path p.params)
    (hjp : joinParams p.path p.params = []
        ∨ ∃ w, joinParams p.path p.params = '/' :: w)
    (hsp : splitparamsL (joinParams p.path p.params) = (p.path, p.params))
    (hqh : '#' ∉ p.query)
    (htrn1 : ∀ c ∈ p.scheme, isTRN c = false)
    (htrn2 : ∀ c ∈ p.netloc, isTRN c = false)
    (htrn3 : ∀ c ∈ joinParams p.path p.params, isTRN c = false)
    (htrn4 : ∀ c ∈ p.query, isTRN c = false)
    (htrn5 : ∀ c ∈ p.fragment, isTRN c = false) :
    urlparseL (urlunparseL p) = some p := by
  have hshape := urlunparseL_shape p hnet hjp
  set jp := joinParams p.path p.params with hjpdef
  set qpart := (if p.query.isEmpty then [] else '?' :: p.query) with hqdef
  set fpart := (if p.fragment.isEmpty then [] else '#' :: p.fragment) with hfdef
  have hqpart_mem : ∀ c ∈ qpart, c = '?' ∨ c ∈ p.query := by
    intro c hc
    rw [hqdef] at hc
    by_cases hq : p.query.isEmpty
    · rw [if_pos hq] at hc; simp at hc
    · rw [if_neg hq] at hc
      rcases List.mem_cons.mp hc with rfl | h2
      · exact Or.inl rfl
      · exact Or.inr h2
  have hfpart_mem : ∀ c ∈ fpart, c = '#' ∨ c ∈ p.fragment := by
    intro c hc
    rw [hfdef] at hc
    by_cases hf : p.fragment.isEmpty
    · rw [if_pos hf] at hc; simp at hc
    · rw [if_neg hf] at hc
      rcases List.mem_cons.mp hc with rfl | h2
      · exact Or.inl rfl
      · exact Or.inr h2
  have htrnTail : ∀ c ∈ jp ++ (qpart ++ fpart), isTRN c = false := by
    intro c hc
    rcases List.mem_append.mp hc with h1 | h2
    · exact htrn3 c h1
    · rcases List.mem_append.mp h2 with h3 | h4
      · rcases hqpart_mem c h3 with rfl | h5
        · decide
        · exact htrn4 c h5
      · rcases hfpart_mem c h4 with rfl | h5
        · decide
        · exact htrn5 c h5
  have htrnOut : ∀ c ∈ urlunparseL p, isTRN c = false := by
    rw [hshape]
    intro c hc
    rcases List.mem_append.mp hc with h1 | h2
    · by_cases hs : p.scheme.isEmpty
      · rw [if_pos hs] at h1; simp at h1
      · rw [if_neg hs] at h1
        rcases List.mem_append.mp h1 with h3 | h4
        · exact htrn1 c h3
        · simp at h4
          subst h4
          decide
    · rcases List.mem_cons.mp h2 with rfl | h3
      · decide
      · rcases List.mem_cons.mp h3 with rfl | h4
        · decide
        · rcases List.mem_append.mp h4 with h5 | h6
          · exact htrn2 c h5
          · exact htrnTail c h6
  have hheadOut : urlunparseL p = []
      ∨ ∃ c t, urlunparseL p = c :: t ∧ isC0OrSpace c = false := by
    right
    rw [hshape]
    rcases hscheme with hs0 | ⟨⟨c0, t0, hct, hc0a⟩, -, -, -⟩
    · rw [hs0]
      exact ⟨'/', '/' :: (p.netloc ++ (jp ++ (qpart ++ fpart))), by simp,
        by decide⟩
    · have hs : p.scheme.isEmpty = false := by rw [hct]; rfl
      rw [hs]
      simp only [Bool.false_eq_true, if_false]
      rw [hct]
      exact ⟨c0, t0 ++ [':']
          ++ '/' :: '/' :: (p.netloc ++ (jp ++ (qpart ++ fpart))),
        by simp, isAlpha_not_c0 hc0a⟩
  have hstrip : stripUrl (urlunparseL p) = urlunparseL p :=
    stripUrl_id htrnOut hheadOut
  have htail_shape : jp ++ (qpart ++ fpart) = []
      ∨ ∃ d tl', jp ++ (qpart ++ fpart) = d :: tl' ∧ netlocDelim d = true := by
    rcases hjp with hjp0 | ⟨w, hjpw⟩
    · rw [hjp0, List.nil_append]
      by_cases hq : p.query.isEmpty
      · have hq0 : qpart = [] := by rw [hqdef, if_pos hq]
        rw [hq0, List.nil_append]
        by_cases hf : p.fragment.isEmpty
        · left; rw [hfdef, if_pos hf]
        · right
          rw [hfdef, if_neg hf]
          exact ⟨'#', p.fragment, rfl, by decide⟩
      · right
        rw [hqdef, if_neg hq]
        exact ⟨'?', p.query ++ fpart, by simp, by decide⟩
    · right
      rw [hjpw]
      exact ⟨'/', w ++ (qpart ++ fpart), by simp, by decide⟩
  have hsch : splitScheme (urlunparseL p)
      = (p.scheme, '/' :: '/' :: (p.netloc ++ (jp ++ (qpart ++ fpart)))) := by
    rw [hshape]
    rcases hscheme with hs0 | ⟨⟨c0, t0, hct, hc0a⟩, hallsc, hlow, hcol⟩
    · rw [hs0]
      simp only [List.isEmpty_nil, if_true, List.nil_append]
      exact splitScheme_slash _
    · have hs : p.scheme.isEmpty = false := by rw [hct]; rfl
      rw [hs]
      simp only [Bool.false_eq_true, if_false]
      have : p.scheme ++ [':']
          ++ '/' :: '/' :: (p.netloc ++ (jp ++ (qpart ++ fpart)))
          = p.scheme
            ++ ':' :: ('/' :: '/' :: (p.netloc ++ (jp ++ (qpart ++ fpart)))) := by
        simp
      rw [this]
      exact splitScheme_valid _ hcol ⟨c0, t0, hct, hc0a⟩ hallsc hlow
  have hnl : splitNetloc ('/' :: '/' :: (p.netloc ++ (jp ++ (qpart ++ fpart))))
      = (p.netloc, jp ++ (qpart ++ fpart)) :=
    splitNetloc_of_append _ hnd htail_shape
  have hfr : splitOn1 '#' (jp ++ (qpart ++ fpart)) = (jp ++ qpart, p.fragment) := by
    have hnh : '#' ∉ jp ++ qpart := by
      intro hm
      rcases List.mem_append.mp hm with h1 | h2
      · exact hjph h1
      · rcases hqpart_mem '#' h2 with he | h3
        · exact absurd he (by decide)
        · exact hqh h3
    by_cases hf : p.fragment.isEmpty
    · have hf0 : p.fragment = [] := by
        cases hx : p.fragment with
        | nil => rfl
        | cons a l => rw [hx] at hf; simp at hf
      have : fpart = [] := by rw [hfdef, if_pos hf]
      rw [this, List.append_nil, hf0]
      exact splitOn1_of_not_mem hnh
    · have : fpart = '#' :: p.fragment := by rw [hfdef, if_neg hf]
      rw [this, ← List.append_assoc]
      exact splitOn1_append _ hnh
  have hqu : splitOn1 '?' (jp ++ qpart) = (jp, p.query) := by
    by_cases hq : p.query.isEmpty
    · have hq0 : p.query = [] := by
        cases hx : p.query with
        | nil => rfl
        | cons a l => rw [hx] at hq; simp at hq
      have : qpart = [] := by rw [hqdef, if_pos hq]
      rw [this, List.append_nil, hq0]
      exact splitOn1_of_not_mem hjpq
    · have : qpart = '?' :: p.query := by rw [hqdef, if_neg hq]
      rw [this]
      exact splitOn1_append _ hjpq
  have hsplit : urlsplitL (urlunparseL p)
      = some ⟨p.scheme, p.netloc, jp, p.query, p.fragment⟩ := by
    unfold urlsplitL
    dsimp only
    rw [hstrip, hsch]
    dsimp only
    rw [hnl]
    dsimp only
    rw [hbr]
    simp only [Bool.false_eq_true, if_false]
    rw [hfr]
    dsimp only
    rw [hqu]
  unfold urlparseL
  rw [hsplit]
  dsimp only
  rw [hsp]

/-! ## Percent-encoding round trip -/

theorem safeChar_iff (c : Char) :
    safeChar c = true
      ↔ (65 ≤ c.toNat ∧ c.toNat ≤ 90) ∨ (97 ≤ c.toNat ∧ c.toNat ≤ 122)
        ∨ (48 ≤ c.toNat ∧ c.toNat ≤ 57) ∨ c.toNat = 95 ∨ c.toNat = 46
        ∨ c.toNat = 45 ∨ c.toNat = 126 := by
  unfold safeChar
  simp only [Char.isAlphanum, Bool.or_eq_true, decide_eq_true_eq, isAlpha_iff,
    isDigit_iff, charEq_iff_toNat]
  simp only [show ('_').toNat = 95 from rfl, show ('.').toNat = 46 from rfl,
    show ('-').toNat = 45 from rfl, show ('~').toNat = 126 from rfl]
  tauto

theorem safeChar_ne {c : Char} (h : safeChar c = true) :
    c ≠ '%' ∧ c ≠ '+' ∧ c ≠ '&' ∧ c ≠ '=' ∧ c ≠ '#' ∧ c ≠ '?'
      ∧ isTRN c = false := by
  rw [safeChar_iff] at h
  refine ⟨?_, ?_, ?_, ?_, ?_, ?_, ?_⟩
  · rw [Ne, charEq_iff_toNat]; simp only [show ('%').toNat = 37 from rfl]; omega
  · rw [Ne, charEq_iff_toNat]; simp only [show ('+').toNat = 43 from rfl]; omega
  · rw [Ne, charEq_iff_toNat]; simp only [show ('&').toNat = 38 from rfl]; omega
  · rw [Ne, charEq_iff_toNat]; simp only [show ('=').toNat = 61 from rfl]; omega
  · rw [Ne, charEq_iff_toNat]; simp only [show ('#').toNat = 35 from rfl]; omega
  · rw [Ne, charEq_iff_toNat]; simp only [show ('?').toNat = 63 from rfl]; omega
  · rw [← Bool.not_eq_true, isTRN_iff]; omega

theorem hexVal_hexDigitU : ∀ n < 16, hexVal? (hexDigitU n) = some n := by
  decide

theorem hexDigitU_ne_plus : ∀ n < 16, hexDigitU n ≠ '+' := by
  decide

theorem hexDigitU_ne_amp : ∀ n < 16, (hexDigitU n ≠ '&' ∧ hexDigitU n ≠ '='
    ∧ hexDigitU n ≠ '#' ∧ hexDigitU n ≠ '?' ∧ isTRN (hexDigitU n) = false) := by
  decide

theorem utf8Bytes_lt (n : Nat) (hn : n < 1114112) :
    ∀ b ∈ utf8Bytes n, b < 256 := by
  unfold utf8Bytes
  intro b hb
  by_cases h1 : n < 128
  · rw [if_pos h1] at hb
    simp at hb
    omega
  · rw [if_neg h1] at hb
    by_cases h2 : n < 2048
    · rw [if_pos h2] at hb
      simp at hb
      rcases hb with rfl | rfl <;> omega
    · rw [if_neg h2] at hb
      by_cases h3 : n < 65536
      · rw [if_pos h3] at hb
        simp at hb
        rcases hb with rfl | rfl | rfl <;> omega
      · rw [if_neg h3] at hb
        simp at hb
        rcases hb with rfl | rfl | rfl | rfl <;> omega

theorem plusToSpace_id {l : List Char} (h : '+' ∉ l) : plusToSpace l = l := by
  induction l with
  | nil => rfl
  | cons c rest ih =>
    unfold plusToSpace
    simp only [List.map_cons]
    rw [if_neg (show ¬ c = '+' from fun he => h (by simp [he]))]
    have := ih fun hm => h (by simp [hm])
    unfold plusToSpace at this
    rw [this]

theorem pctLoop_byte (b : Nat) (hb : b < 256) (rest : List Char) :
    pctLoop .clean (pctByte b ++ rest) = .inr b :: pctLoop .clean rest := by
  unfold pctByte
  simp only [List.cons_append, List.nil_append]
  show pctLoop .clean ('%' :: hexDigitU (b / 16) :: hexDigitU (b % 16) :: rest)
      = _
  rw [show pctLoop .clean ('%' :: hexDigitU (b / 16) :: hexDigitU (b % 16)
        :: rest)
      = pctLoop .pct (hexDigitU (b / 16) :: hexDigitU (b % 16) :: rest) by
    simp [pctLoop]]
  rw [show pctLoop .pct (hexDigitU (b / 16) :: hexDigitU (b % 16) :: rest)
      = pctLoop (.pcth (b / 16) (hexDigitU (b / 16)))
          (hexDigitU (b % 16) :: rest) by
    simp [pctLoop, hexVal_hexDigitU (b / 16) (by omega)]]
  rw [show pctLoop (.pcth (b / 16) (hexDigitU (b / 16)))
        (hexDigitU (b % 16) :: rest)
      = .inr (b / 16 * 16 + b % 16) :: pctLoop .clean rest by
    simp [pctLoop, hexVal_hexDigitU (b % 16) (by omega)]]
  congr 1
  congr 1
  omega

theorem pctLoop_bytes {bs : List Nat} (rest : List Char)
    (hb : ∀ b ∈ bs, b < 256) :
    pctLoop .clean (bs.flatMap pctByte ++ rest)
      = bs.map Sum.inr ++ pctLoop .clean rest := by
  induction bs with
  | nil => simp
  | cons b bs' ih =>
    rw [List.flatMap_cons, List.append_assoc,
      pctLoop_byte b (hb b (by simp)) _, List.map_cons]
    rw [ih fun d hd => hb d (by simp [hd])]
    rfl

theorem pctLoop_lit {c : Char} (rest : List Char) (h : ¬ c = '%') :
    pctLoop .clean (c :: rest) = .inl c :: pctLoop .clean rest := by
  simp [pctLoop, h]

theorem decodeLoop_none_inl (c : Char) (ts : List (Char ⊕ Nat)) :
    decodeLoop none (.inl c :: ts) = c :: decodeLoop none ts := rfl

theorem decodeLoop_none_inr (b : Nat) (ts : List (Char ⊕ Nat)) :
    decodeLoop none (.inr b :: ts)
      = (stepFresh b).1 ++ decodeLoop (stepFresh b).2 ts := rfl

theorem decodeLoop_some_inr (pd : Pend) (b : Nat) (ts : List (Char ⊕ Nat)) :
    decodeLoop (some pd) (.inr b :: ts)
      = if contOK pd b then
          (if pd.acc.length + 1 = pd.len - 1
           then assemble pd.lead pd.len (pd.acc ++ [b]) :: decodeLoop none ts
           else decodeLoop (some ⟨pd.lead, pd.len, pd.acc ++ [b]⟩) ts)
        else replChar :: ((stepFresh b).1 ++ decodeLoop (stepFresh b).2 ts) :=
  rfl

theorem stepFresh_ascii {b : Nat} (h : b < 128) :
    stepFresh b = ([Char.ofNat b], none) := by
  unfold stepFresh
  rw [if_pos h]

theorem stepFresh_lead2 {b : Nat} (h1 : 194 ≤ b) (h2 : b < 224) :
    stepFresh b = ([], some ⟨b, 2, []⟩) := by
  unfold stepFresh
  rw [if_neg (by omega), if_neg (by omega), if_pos h2]

theorem stepFresh_lead3 {b : Nat} (h1 : 224 ≤ b) (h2 : b < 240) :
    stepFresh b = ([], some ⟨b, 3, []⟩) := by
  unfold stepFresh
  rw [if_neg (by omega), if_neg (by omega), if_neg (by omega), if_pos h2]

theorem stepFresh_lead4 {b : Nat} (h1 : 240 ≤ b) (h2 : b < 245) :
    stepFresh b = ([], some ⟨b, 4, []⟩) := by
  unfold stepFresh
  rw [if_neg (by omega), if_neg (by omega), if_neg (by omega),
    if_neg (by omega), if_pos h2]

theorem contOK_first {lead b : Nat} (hb1 : 128 ≤ b) (hb2 : b < 192)
    (h1 : lead = 224 → 160 ≤ b) (h2 : lead = 237 → b < 160)
    (h3 : lead = 240 → 144 ≤ b) (h4 : lead = 244 → b < 144) :
    contOK ⟨lead, 2, []⟩ b = true ∧ contOK ⟨lead, 3, []⟩ b = true
      ∧ contOK ⟨lead, 4, []⟩ b = true := by
  unfold contOK contByte leadOK
  simp only [List.isEmpty_nil, if_true, Bool.and_eq_true, decide_eq_true_eq]
  omega

theorem contOK_later {lead len : Nat} {acc : List Nat} {b : Nat}
    (hacc : acc ≠ []) (hb1 : 128 ≤ b) (hb2 : b < 192) :
    contOK ⟨lead, len, acc⟩ b = true := by
  unfold contOK contByte
  have : acc.isEmpty = false := by
    cases acc with
    | nil => exact absurd rfl hacc
    | cons a l => rfl
  simp only [this, Bool.false_eq_true, if_false, Bool.and_true,
    Bool.and_eq_true, decide_eq_true_eq]
  omega

/-- Decoding the UTF-8 bytes of a valid code point recovers the
character, whatever byte or literal tokens follow. -/
theorem decode_utf8 {n : Nat} (hv : n.isValidChar)
    (ts : List (Char ⊕ Nat)) :
    decodeLoop none ((utf8Bytes n).map Sum.inr ++ ts)
      = Char.ofNat n :: decodeLoop none ts := by
  have hval : n < 55296 ∨ (57343 < n ∧ n < 1114112) := hv
  unfold utf8Bytes
  by_cases h1 : n < 128
  · rw [if_pos h1]
    simp only [List.map_cons, List.map_nil, List.cons_append, List.nil_append]
    rw [decodeLoop_none_inr, stepFresh_ascii h1]
    rfl
  · rw [if_neg h1]
    by_cases h2 : n < 2048
    · rw [if_pos h2]
      simp only [List.map_cons, List.map_nil, List.cons_append,
        List.nil_append]
      rw [decodeLoop_none_inr, stepFresh_lead2 (by omega) (by omega)]
      simp only [List.nil_append]
      rw [decodeLoop_some_inr,
        if_pos (@contOK_first (192 + n / 64) _ (by omega) (by omega)
          (by omega) (by omega) (by omega) (by omega)).1,
        if_pos (by simp)]
      unfold assemble
      simp only [List.nil_append]
      have : (192 + n / 64 - 192) * 64 + (128 + n % 64 - 128) = n := by omega
      rw [this]
    · rw [if_neg h2]
      by_cases h3 : n < 65536
      · rw [if_pos h3]
        simp only [List.map_cons, List.map_nil, List.cons_append,
          List.nil_append]
        rw [decodeLoop_none_inr, stepFresh_lead3 (by omega) (by omega)]
        simp only [List.nil_append]
        rw [decodeLoop_some_inr,
          if_pos (@contOK_first (224 + n / 4096) _ (by omega) (by omega)
            (by omega) (by omega) (by omega) (by omega)).2.1,
          if_neg (by simp)]
        rw [decodeLoop_some_inr,
          if_pos (contOK_later (by simp) (by omega) (by omega)),
          if_pos (by simp)]
        unfold assemble
        simp only [List.nil_append, List.cons_append]
        have : (224 + n / 4096 - 224) * 4096 + (128 + n / 64 % 64 - 128) * 64
            + (128 + n % 64 - 128) = n := by omega
        rw [this]
      · rw [if_neg h3]
        simp only [List.map_cons, List.map_nil, List.cons_append,
          List.nil_append]
        rw [decodeLoop_none_inr, stepFresh_lead4 (by omega) (by omega)]
        simp only [List.nil_append]
        rw [decodeLoop_some_inr,
          if_pos (@contOK_first (240 + n / 262144) _ (by omega)
            (by omega) (by omega) (by omega) (by omega) (by omega)).2.2,
          if_neg (by simp)]
        rw [decodeLoop_some_inr,
          if_pos (contOK_later (by simp) (by omega) (by omega)),
          if_neg (by simp)]
        rw [decodeLoop_some_inr,
          if_pos (contOK_later (by simp) (by omega) (by omega)),
          if_pos (by simp)]
        unfold assemble
        simp only [List.nil_append, List.cons_append]
        have : (240 + n / 262144 - 240) * 262144
            + (128 + n / 4096 % 64 - 128) * 4096
            + (128 + n / 64 % 64 - 128) * 64 + (128 + n % 64 - 128) = n := by
          omega
        rw [this]
theorem charOfNat_toNat (c : Char) : Char.ofNat c.toNat = c :=
  charEq_of_toNat (charToNat_ofNat _ c.valid)

/-- One encoded character decodes back, whatever follows. -/
theorem qp_step (c : Char) (rest : List Char) :
    decodeLoop none (pctLoop .clean (plusToSpace (quotePlusChar c ++ rest)))
      = c :: decodeLoop none (pctLoop .clean (plusToSpace rest)) := by
  unfold quotePlusChar
  by_cases hs : safeChar c = true
  · rw [if_pos hs]
    obtain ⟨hp, hplus, -, -, -, -, -⟩ := safeChar_ne hs
    rw [show ([c] ++ rest) = c :: rest from rfl]
    unfold plusToSpace
    simp only [List.map_cons]
    rw [if_neg hplus]
    rw [pctLoop_lit _ hp, decodeLoop_none_inl]
  · rw [if_neg hs]
    by_cases hsp : c = ' '
    · rw [if_pos hsp]
      rw [show (['+'] ++ rest) = '+' :: rest from rfl]
      unfold plusToSpace
      simp only [List.map_cons]
      simp only [if_true]
      rw [pctLoop_lit _ (by decide), decodeLoop_none_inl, hsp]
    · rw [if_neg hsp]
      have hplus_free : '+' ∉ (utf8Bytes c.toNat).flatMap pctByte := by
        intro hm
        obtain ⟨b, hb, hdb⟩ := List.mem_flatMap.mp hm
        have hb256 := utf8Bytes_lt c.toNat (charToNat_lt c) b hb
        unfold pctByte at hdb
        simp only [List.mem_cons, List.not_mem_nil, or_false] at hdb
        rcases hdb with he | he | he
        · exact absurd he (by decide)
        · exact hexDigitU_ne_plus (b / 16) (by omega) he.symm
        · exact hexDigitU_ne_plus (b % 16) (by omega) he.symm
      unfold plusToSpace
      rw [List.map_append]
      show decodeLoop none (pctLoop .clean
          (plusToSpace ((utf8Bytes c.toNat).flatMap pctByte)
            ++ plusToSpace rest)) = _
      have hv : Nat.isValidChar c.toNat := c.valid
      rw [plusToSpace_id hplus_free,
        pctLoop_bytes _ (utf8Bytes_lt c.toNat (charToNat_lt c)),
        decode_utf8 hv, charOfNat_toNat]
      rfl

/-- `quote_plus` then `replace('+', ' ')` + `unquote` is the identity:
values survive the encode/decode round trip. -/
theorem unquotePlus_quotePlus (v : List Char) :
    unquotePlusL (quotePlusL v) = v := by
  induction v with
  | nil => rfl
  | cons c rest ih =>
    unfold unquotePlusL unquoteL decodeTokens pctTokens at ih ⊢
    unfold quotePlusL at ih ⊢
    rw [List.flatMap_cons, qp_step, ih]

/-! ## `urlencode` then `parse_qsl` -/

/-- The `key=value` text of one pair in the `urlencode` output. -/
def encPair (p : List Char × List Char) : List Char :=
  quotePlusL p.1 ++ '=' :: quotePlusL p.2

theorem urlencodeL_cons (p : List Char × List Char)
    (ps : List (List Char × List Char)) :
    urlencodeL (p :: ps) = encPair p ++ ps.flatMap fun q => '&' :: encPair q :=
  rfl

/-- Characters produced by `quote_plus` are never separators or
tab/newline/CR. -/
theorem quotePlusL_not_special (l : List Char) :
    ∀ d ∈ quotePlusL l, d ≠ '&' ∧ d ≠ '=' ∧ d ≠ '#' ∧ d ≠ '?'
      ∧ isTRN d = false := by
  intro d hd
  unfold quotePlusL at hd
  obtain ⟨c, hc, hdc⟩ := List.mem_flatMap.mp hd
  unfold quotePlusChar at hdc
  by_cases hs : safeChar c = true
  · rw [if_pos hs] at hdc
    simp only [List.mem_cons, List.not_mem_nil, or_false] at hdc
    subst hdc
    obtain ⟨-, -, h3, h4, h5, h6, h7⟩ := safeChar_ne hs
    exact ⟨h3, h4, h5, h6, h7⟩
  · rw [if_neg hs] at hdc
    by_cases hsp : c = ' '
    · rw [if_pos hsp] at hdc
      simp only [List.mem_cons, List.not_mem_nil, or_false] at hdc
      subst hdc
      exact ⟨by decide, by decide, by decide, by decide, by decide⟩
    · rw [if_neg hsp] at hdc
      obtain ⟨b, hb, hdb⟩ := List.mem_flatMap.mp hdc
      have hb256 := utf8Bytes_lt c.toNat (charToNat_lt c) b hb
      unfold pctByte at hdb
      simp only [List.mem_cons, List.not_mem_nil, or_false] at hdb
      rcases hdb with rfl | he | he
      · exact ⟨by decide, by decide, by decide, by decide, by decide⟩
      · subst he
        have := hexDigitU_ne_amp (b / 16) (by omega)
        exact ⟨this.1, this.2.1, this.2.2.1, this.2.2.2.1, this.2.2.2.2⟩
      · subst he
        have := hexDigitU_ne_amp (b % 16) (by omega)
        exact ⟨this.1, this.2.1, this.2.2.1, this.2.2.2.1, this.2.2.2.2⟩

theorem quotePlusChar_ne_nil (c : Char) : quotePlusChar c ≠ [] := by
  unfold quotePlusChar
  by_cases hs : safeChar c = true
  · rw [if_pos hs]; simp
  · rw [if_neg hs]
    by_cases hsp : c = ' '
    · rw [if_pos hsp]; simp
    · rw [if_neg hsp]
      unfold utf8Bytes
      by_cases h1 : c.toNat < 128
      · rw [if_pos h1]; simp [pctByte]
      · rw [if_neg h1]
        by_cases h2 : c.toNat < 2048
        · rw [if_pos h2]; simp [pctByte]
        · rw [if_neg h2]
          by_cases h3 : c.toNat < 65536
          · rw [if_pos h3]; simp [pctByte]
          · rw [if_neg h3]; simp [pctByte]

theorem quotePlusL_ne_nil {l : List Char} (h : l ≠ []) : quotePlusL l ≠ [] := by
  cases l with
  | nil => exact absurd rfl h
  | cons c rest =>
    unfold quotePlusL
    rw [List.flatMap_cons]
    intro he
    exact quotePlusChar_ne_nil c (List.append_eq_nil.mp he).1

theorem splitSep_ne_nil (sep : Char) (l : List Char) : splitSep sep l ≠ [] := by
  cases l with
  | nil => simp [splitSep]
  | cons c rest =>
    unfold splitSep
    by_cases hc : c = sep
    · rw [if_pos hc]; simp
    · rw [if_neg hc]
      cases hr : splitSep sep rest with
      | nil => simp
      | cons h t => simp

theorem splitSep_not_mem {sep : Char} {l : List Char} (h : sep ∉ l) :
    splitSep sep l = [l] := by
  induction l with
  | nil => rfl
  | cons c rest ih =>
    unfold splitSep
    rw [if_neg (fun he => h (by simp [he]))]
    rw [ih fun hm => h (by simp [hm])]

theorem splitSep_cons (sep c : Char) (rest : List Char) :
    splitSep sep (c :: rest)
      = if c = sep then [] :: splitSep sep rest
        else
          match splitSep sep rest with
          | h :: t => (c :: h) :: t
          | [] => [[c]] := rfl

theorem splitSep_sep_append {sep : Char} {a : List Char} (b : List Char)
    (ha : sep ∉ a) : splitSep sep (a ++ sep :: b) = a :: splitSep sep b := by
  induction a with
  | nil =>
    show splitSep sep (sep :: b) = [] :: splitSep sep b
    rw [splitSep_cons, if_pos rfl]
  | cons c a' ih =>
    have hc : ¬ c = sep := fun he => ha (by simp [he])
    show splitSep sep (c :: (a' ++ sep :: b)) = (c :: a') :: splitSep sep b
    rw [splitSep_cons, if_neg hc, ih fun hm => ha (by simp [hm])]

/-- `parse_qsl` inverts `urlencode` on pairs with non-empty values. -/
theorem parseQsl_urlencode (pairs : List (List Char × List Char))
    (hne : ∀ p ∈ pairs, p.2 ≠ []) :
    parseQsl (urlencodeL pairs) = pairs := by
  induction pairs with
  | nil => rfl
  | cons p ps ih =>
    have hamp : '&' ∉ encPair p := by
      intro hm
      unfold encPair at hm
      rcases List.mem_append.mp hm with h1 | h2
      · exact (quotePlusL_not_special p.1 '&' h1).1 rfl
      · rcases List.mem_cons.mp h2 with he | h3
        · exact absurd he.symm (by decide)
        · exact (quotePlusL_not_special p.2 '&' h3).1 rfl
    have hpe : parseQslPiece (encPair p) = some p := by
      unfold parseQslPiece encPair
      have hnonempty : (quotePlusL p.1 ++ '=' :: quotePlusL p.2).isEmpty
          = false := by
        cases hq : quotePlusL p.1 with
        | nil => rfl
        | cons a l => rfl
      rw [hnonempty]
      simp only [Bool.false_eq_true, if_false]
      have heq : '=' ∉ quotePlusL p.1 := fun hm =>
        (quotePlusL_not_special p.1 '=' hm).2.1 rfl
      rw [splitAtFirstChar_append _ heq]
      have hvne : (quotePlusL p.2).isEmpty = false := by
        have := quotePlusL_ne_nil (hne p (by simp))
        cases hq : quotePlusL p.2 with
        | nil => exact absurd hq this
        | cons a l => rfl
      dsimp only
      rw [hvne]
      simp only [Bool.false_eq_true, if_false]
      rw [unquotePlus_quotePlus, unquotePlus_quotePlus]
    cases ps with
    | nil =>
      unfold parseQsl
      rw [urlencodeL_cons]
      simp only [List.flatMap_nil, List.append_nil]
      rw [splitSep_not_mem hamp]
      rw [List.filterMap_cons, List.filterMap_nil, hpe]
    | cons p' ps' =>
      unfold parseQsl
      rw [urlencodeL_cons]
      rw [show ((p' :: ps').flatMap fun q => '&' :: encPair q)
          = '&' :: urlencodeL (p' :: ps') by
        rw [List.flatMap_cons, urlencodeL_cons]
        rfl]
      rw [splitSep_sep_append _ hamp]
      rw [List.filterMap_cons, hpe]
      have := ih fun q hq => hne q (by simp [hq])
      unfold parseQsl at this
      rw [this]

/-! ## Non-emptiness of decoded values and `parse_qs` grouping -/

theorem stepFresh_cases (b : Nat) :
    stepFresh b = ([Char.ofNat b], none) ∨ stepFresh b = ([replChar], none)
      ∨ ∃ pd, stepFresh b = ([], some pd) := by
  unfold stepFresh
  by_cases h1 : b < 128
  · rw [if_pos h1]; exact Or.inl rfl
  · rw [if_neg h1]
    by_cases h2 : b < 194
    · rw [if_pos h2]; exact Or.inr (Or.inl rfl)
    · rw [if_neg h2]
      by_cases h3 : b < 224
      · rw [if_pos h3]; exact Or.inr (Or.inr ⟨_, rfl⟩)
      · rw [if_neg h3]
        by_cases h4 : b < 240
        · rw [if_pos h4]; exact Or.inr (Or.inr ⟨_, rfl⟩)
        · rw [if_neg h4]
          by_cases h5 : b < 245
          · rw [if_pos h5]; exact Or.inr (Or.inr ⟨_, rfl⟩)
          · rw [if_neg h5]; exact Or.inr (Or.inl rfl)

theorem decodeLoop_ne_nil :
    ∀ (ts : List (Char ⊕ Nat)) (st : Option Pend),
      (st = none → ts ≠ []) → decodeLoop st ts ≠ [] := by
  intro ts
  induction ts with
  | nil =>
    intro st h
    cases st with
    | none => exact absurd rfl (h rfl)
    | some pd => simp [decodeLoop]
  | cons t ts' ih =>
    intro st h
    cases st with
    | none =>
      cases t with
      | inl c => rw [decodeLoop_none_inl]; simp
      | inr b =>
        rw [decodeLoop_none_inr]
        rcases stepFresh_cases b with hs | hs | ⟨pd, hs⟩
        · rw [hs]; simp
        · rw [hs]; simp
        · rw [hs]
          simp only [List.nil_append]
          exact ih (some pd) (by simp)
    | some pd =>
      cases t with
      | inl c => show replChar :: _ ≠ []; simp
      | inr b =>
        rw [decodeLoop_some_inr]
        by_cases hc : contOK pd b = true
        · rw [if_pos hc]
          by_cases hl : pd.acc.length + 1 = pd.len - 1
          · rw [if_pos hl]; simp
          · rw [if_neg hl]
            exact ih (some ⟨pd.lead, pd.len, pd.acc ++ [b]⟩) (by simp)
        · rw [if_neg hc]; simp

theorem pctLoop_ne_nil :
    ∀ (l : List Char) (st : PctSt),
      (st = .clean → l ≠ []) → pctLoop st l ≠ [] := by
  intro l
  induction l with
  | nil =>
    intro st h
    cases st with
    | clean => exact absurd rfl (h rfl)
    | pct => simp [pctLoop]
    | pcth h1 c1 => simp [pctLoop]
  | cons c rest ih =>
    intro st h
    cases st with
    | clean =>
      show (if c = '%' then pctLoop .pct rest
        else .inl c :: pctLoop .clean rest) ≠ []
      by_cases hc : c = '%'
      · rw [if_pos hc]
        exact ih .pct (by simp)
      · rw [if_neg hc]; simp
    | pct =>
      show (match hexVal? c with
        | some h1 => pctLoop (.pcth h1 c) rest
        | none => if c = '%' then .inl '%' :: pctLoop .pct rest
            else .inl '%' :: .inl c :: pctLoop .clean rest) ≠ []
      cases hx : hexVal? c with
      | some h1 =>
        exact ih (.pcth h1 c) (by simp)
      | none =>
        by_cases hc : c = '%'
        · rw [if_pos hc]; simp
        · rw [if_neg hc]; simp
    | pcth h1 c1 =>
      show (match hexVal? c with
        | some h2 => .inr (h1 * 16 + h2) :: pctLoop .clean rest
        | none => if c = '%' then .inl '%' :: .inl c1 :: pctLoop .pct rest
            else .inl '%' :: .inl c1 :: .inl c :: pctLoop .clean rest) ≠ []
      cases hx : hexVal? c with
      | some h2 => simp
      | none =>
        by_cases hc : c = '%'
        · rw [if_pos hc]; simp
        · rw [if_neg hc]; simp

theorem unquotePlus_ne_nil {v : List Char} (h : v ≠ []) :
    unquotePlusL v ≠ [] := by
  unfold unquotePlusL unquoteL decodeTokens pctTokens
  apply decodeLoop_ne_nil
  intro _
  apply pctLoop_ne_nil
  intro _
  unfold plusToSpace
  simpa using h

theorem parseQsl_snd_ne (qs : List Char) :
    ∀ p ∈ parseQsl qs, p.2 ≠ [] := by
  intro p hp
  unfold parseQsl at hp
  obtain ⟨nv, -, hnv⟩ := List.mem_filterMap.mp hp
  unfold parseQslPiece at hnv
  by_cases he : nv.isEmpty = true
  · rw [if_pos he] at hnv; simp at hnv
  · rw [if_neg he] at hnv
    cases hsp : splitAtFirstChar '=' nv with
    | none => rw [hsp] at hnv; simp at hnv
    | some ab =>
      rw [hsp] at hnv
      dsimp only at hnv
      by_cases hv : ab.2.isEmpty = true
      · rw [if_pos hv] at hnv; simp at hnv
      · rw [if_neg hv] at hnv
        simp only [Option.some.injEq] at hnv
        rw [← hnv]
        apply unquotePlus_ne_nil
        cases hx : ab.2 with
        | nil => rw [hx] at hv; simp at hv
        | cons a l => simp

theorem insertQsPair_keys (acc : List (List Char × List (List Char)))
    (k : List Char) (v : List Char) :
    (insertQsPair acc k v).map Prod.fst
      = if k ∈ acc.map Prod.fst then acc.map Prod.fst
        else acc.map Prod.fst ++ [k] := by
  induction acc with
  | nil => simp [insertQsPair]
  | cons kv t ih =>
    obtain ⟨k', vs⟩ := kv
    unfold insertQsPair
    by_cases hk : k' = k
    · subst hk
      rw [if_pos rfl]
      simp
    · rw [if_neg hk]
      simp only [List.map_cons, ih, List.mem_cons]
      by_cases hmem : k ∈ t.map Prod.fst
      · rw [if_pos hmem, if_pos (Or.inr hmem)]
      · have hnot : ¬ (k = k' ∨ k ∈ List.map Prod.fst t) := by
          rintro (he | hm)
          · exact hk he.symm
          · exact hmem hm
        rw [if_neg hmem, if_neg hnot]
        simp

theorem insertQsPair_append {acc : List (List Char × List (List Char))}
    {k : List Char} {v : List Char} (h : k ∉ acc.map Prod.fst) :
    insertQsPair acc k v = acc ++ [(k, [v])] := by
  induction acc with
  | nil => rfl
  | cons kv t ih =>
    obtain ⟨k', vs⟩ := kv
    unfold insertQsPair
    have hk : ¬ k' = k := by
      intro he
      exact h (by simp [he])
    rw [if_neg hk, ih fun hm => h (by simp [hm])]
    simp

theorem insertQsPair_values {acc : List (List Char × List (List Char))}
    {k : List Char} {v : List Char} {P : List Char → Prop}
    (ha : ∀ kv ∈ acc, ∀ w ∈ kv.2, P w) (hv : P v) :
    ∀ kv ∈ insertQsPair acc k v, ∀ w ∈ kv.2, P w := by
  induction acc with
  | nil =>
    intro kv hkv w hw
    unfold insertQsPair at hkv
    rw [List.mem_singleton] at hkv
    subst hkv
    rw [List.mem_singleton] at hw
    subst hw
    exact hv
  | cons kv0 t ih =>
    obtain ⟨k', vs⟩ := kv0
    intro kv hkv w hw
    unfold insertQsPair at hkv
    by_cases hk : k' = k
    · rw [if_pos hk] at hkv
      rcases List.mem_cons.mp hkv with he | hm
      · subst he
        rcases List.mem_append.mp hw with h1 | h2
        · exact ha (k', vs) (by simp) w h1
        · rw [List.mem_singleton] at h2
          subst h2
          exact hv
      · exact ha kv (by simp [hm]) w hw
    · rw [if_neg hk] at hkv
      rcases List.mem_cons.mp hkv with he | hm
      · subst he
        exact ha (k', vs) (by simp) w hw
      · exact ih (fun kv1 hkv1 w1 hw1 => ha kv1 (by simp [hkv1]) w1 hw1)
          kv hm w hw

theorem foldl_insert_values {pairs : List (List Char × List Char)}
    {P : List Char → Prop} (hp : ∀ p ∈ pairs, P p.2) :
    ∀ acc, (∀ kv ∈ acc, ∀ w ∈ kv.2, P w) →
    ∀ kv ∈ pairs.foldl (fun a kv => insertQsPair a kv.1 kv.2) acc,
      ∀ w ∈ kv.2, P w := by
  induction pairs with
  | nil => intro acc hacc kv hkv w hw; exact hacc kv hkv w hw
  | cons p ps ih =>
    intro acc hacc kv hkv w hw
    exact ih (fun q hq => hp q (by simp [hq]))
      (insertQsPair acc p.1 p.2)
      (insertQsPair_values hacc (hp p (by simp)))
      kv hkv w hw

theorem parseQs_values (qs : List Char) :
    ∀ kv ∈ parseQs qs, ∀ w ∈ kv.2, w ≠ [] := by
  unfold parseQs
  exact foldl_insert_values (parseQsl_snd_ne qs) []
    (fun kv hkv => by simp at hkv)

theorem foldl_insert_keys_distinct (pairs : List (List Char × List Char)) :
    ∀ acc, ((acc.map Prod.fst).Pairwise (· ≠ ·)) →
      (((pairs.foldl (fun a kv => insertQsPair a kv.1 kv.2) acc).map
        Prod.fst).Pairwise (· ≠ ·)) := by
  induction pairs with
  | nil => intro acc hacc; exact hacc
  | cons p ps ih =>
    intro acc hacc
    apply ih
    rw [insertQsPair_keys]
    by_cases hmem : p.1 ∈ acc.map Prod.fst
    · rw [if_pos hmem]; exact hacc
    · rw [if_neg hmem]
      rw [List.pairwise_append]
      refine ⟨hacc, by simp, ?_⟩
      intro a ha b hb
      simp at hb
      subst hb
      intro he
      exact hmem (he ▸ ha)

theorem parseQs_keys_distinct (qs : List Char) :
    ((parseQs qs).map Prod.fst).Pairwise (· ≠ ·) := by
  unfold parseQs
  exact foldl_insert_keys_distinct _ [] (by simp)

theorem foldl_insert_of_distinct :
    ∀ (pairs : List (List Char × List Char))
      (acc : List (List Char × List (List Char))),
      (∀ p ∈ pairs, p.1 ∉ acc.map Prod.fst) →
      ((pairs.map Prod.fst).Pairwise (· ≠ ·)) →
      pairs.foldl (fun a kv => insertQsPair a kv.1 kv.2) acc
        = acc ++ pairs.map fun p => (p.1, [p.2]) := by
  intro pairs
  induction pairs with
  | nil => intro acc _ _; simp
  | cons p ps ih =>
    intro acc hnotin hpw
    show ps.foldl _ (insertQsPair acc p.1 p.2) = _
    rw [insertQsPair_append (hnotin p (by simp))]
    rw [ih (acc ++ [(p.1, [p.2])]) ?_ (List.Pairwise.sublist
      (by simp) hpw)]
    · simp
    · intro q hq
      simp only [List.map_append, List.mem_append, List.map_cons,
        List.map_nil]
      rintro (hm | hm)
      · exact hnotin q (by simp [hq]) hm
      · simp at hm
        have := (List.pairwise_cons.mp hpw).1 q.1 (List.mem_map_of_mem
          Prod.fst hq)
        exact this hm.symm

/-! ## Properties of `cleanedParams` -/

theorem cleanedParams_essential (q : List Char) :
    ∀ p ∈ cleanedParams q, isEssential p.1 = true := by
  intro p hp
  unfold cleanedParams at hp
  obtain ⟨kv, -, hkv⟩ := List.mem_filterMap.mp hp
  obtain ⟨k, vs⟩ := kv
  cases vs with
  | nil => simp at hkv
  | cons v0 vrest =>
    dsimp only at hkv
    by_cases he : isEssential k = true
    · rw [if_pos he] at hkv
      simp only [Option.some.injEq] at hkv
      rw [← hkv]
      exact he
    · rw [if_neg he] at hkv
      simp at hkv

theorem cleanedParams_snd_ne (q : List Char) :
    ∀ p ∈ cleanedParams q, p.2 ≠ [] := by
  intro p hp
  unfold cleanedParams at hp
  obtain ⟨kv, hkvmem, hkv⟩ := List.mem_filterMap.mp hp
  obtain ⟨k, vs⟩ := kv
  cases vs with
  | nil => simp at hkv
  | cons v0 vrest =>
    dsimp only at hkv
    by_cases he : isEssential k = true
    · rw [if_pos he] at hkv
      simp only [Option.some.injEq] at hkv
      rw [← hkv]
      exact parseQs_values q (k, v0 :: vrest) hkvmem v0 (by simp)
    · rw [if_neg he] at hkv
      simp at hkv

theorem cleanedParams_keys_sublist (q : List Char) :
    ((cleanedParams q).map Prod.fst).Sublist ((parseQs q).map Prod.fst) := by
  unfold cleanedParams
  generalize parseQs q = l
  induction l with
  | nil => simp
  | cons kv t ih =>
    obtain ⟨k, vs⟩ := kv
    rw [List.filterMap_cons]
    cases vs with
    | nil =>
      dsimp only
      exact List.Sublist.cons _ ih
    | cons v0 vrest =>
      dsimp only
      by_cases he : isEssential k = true
      · rw [if_pos he]
        simp only [List.map_cons]
        exact List.Sublist.cons₂ _ ih
      · rw [if_neg he]
        exact List.Sublist.cons _ ih

theorem cleanedParams_keys_distinct (q : List Char) :
    ((cleanedParams q).map Prod.fst).Pairwise (· ≠ ·) :=
  (parseQs_keys_distinct q).sublist (cleanedParams_keys_sublist q)

theorem filterMap_of_essential (l : List (List Char × List Char))
    (hess : ∀ p ∈ l, isEssential p.1 = true) :
    List.filterMap
      (fun kv => match kv with
        | (k, v0 :: _) => if isEssential k then some (k, v0) else none
        | (_, []) => none)
      (l.map fun p => (p.1, [p.2])) = l := by
  induction l with
  | nil => rfl
  | cons p t ih =>
    rw [List.map_cons, List.filterMap_cons]
    dsimp only
    rw [if_pos (hess p (by simp))]
    rw [ih fun r hr => hess r (by simp [hr])]

/-- Re-parsing and re-cleaning the rebuilt query is the identity. -/
theorem cleanedParams_idem (q : List Char) :
    parseQsl (urlencodeL (cleanedParams q)) = cleanedParams q ∧
    cleanedParams (urlencodeL (cleanedParams q)) = cleanedParams q := by
  have h1 : parseQsl (urlencodeL (cleanedParams q)) = cleanedParams q :=
    parseQsl_urlencode _ (cleanedParams_snd_ne q)
  refine ⟨h1, ?_⟩
  have h2 : parseQs (urlencodeL (cleanedParams q))
      = (cleanedParams q).map fun p => (p.1, [p.2]) := by
    show (parseQsl (urlencodeL (cleanedParams q))).foldl
        (fun acc kv => insertQsPair acc kv.1 kv.2) [] = _
    rw [h1, foldl_insert_of_distinct _ [] (by simp)
      (cleanedParams_keys_distinct q), List.nil_append]
  show List.filterMap
      (fun kv => match kv with
        | (k, v0 :: _) => if isEssential k then some (k, v0) else none
        | (_, []) => none)
      (parseQs (urlencodeL (cleanedParams q))) = cleanedParams q
  rw [h2]
  exact filterMap_of_essential _ (cleanedParams_essential q)

/-- Characters of the rebuilt query: never `#` or `?`, never
tab/newline/CR. -/
theorem urlencodeL_chars (pairs : List (List Char × List Char)) :
    ∀ d ∈ urlencodeL pairs, d ≠ '#' ∧ d ≠ '?' ∧ isTRN d = false := by
  induction pairs with
  | nil => intro d hd; simp [urlencodeL] at hd
  | cons p ps ih =>
    intro d hd
    rw [urlencodeL_cons] at hd
    have hp_enc : ∀ e ∈ encPair p, e ≠ '#' ∧ e ≠ '?' ∧ isTRN e = false := by
      intro e he
      unfold encPair at he
      rcases List.mem_append.mp he with h1 | h2
      · have := quotePlusL_not_special p.1 e h1
        exact ⟨this.2.2.1, this.2.2.2.1, this.2.2.2.2⟩
      · rcases List.mem_cons.mp h2 with rfl | h3
        · exact ⟨by decide, by decide, by decide⟩
        · have := quotePlusL_not_special p.2 e h3
          exact ⟨this.2.2.1, this.2.2.2.1, this.2.2.2.2⟩
    rcases List.mem_append.mp hd with h1 | h2
    · exact hp_enc d h1
    · obtain ⟨q, hq, hdq⟩ := List.mem_flatMap.mp h2
      rcases List.mem_cons.mp hdq with rfl | h3
      · exact ⟨by decide, by decide, by decide⟩
      · have : d ∈ urlencodeL ps := by
          cases ps with
          | nil => simp at hq
          | cons p' ps' =>
            rw [urlencodeL_cons]
            rcases List.mem_cons.mp hq with he | hm
            · subst he
              exact List.mem_append.mpr (Or.inl h3)
            · refine List.mem_append.mpr (Or.inr ?_)
              exact List.mem_flatMap.mpr ⟨q, hm, List.mem_cons.mpr
                (Or.inr h3)⟩
        exact ih d this

/-! ## The cleaned URL re-parses to the cleaned parts -/

theorem urlparseL_some {l : List Char} {p : UrlParts}
    (h : urlparseL l = some p) :
    ∃ s, urlsplitL l = some s
      ∧ p = ⟨s.scheme, s.netloc, (splitparamsL s.path).1,
          (splitparamsL s.path).2, s.query, s.fragment⟩ := by
  unfold urlparseL at h
  cases hs : urlsplitL l with
  | none => rw [hs] at h; simp at h
  | some s =>
    rw [hs] at h
    dsimp only at h
    exact ⟨s, rfl, (Option.some.inj h).symm⟩

theorem isYT_nonempty {n : List Char} (h : isYTNetloc n = true) : n ≠ [] := by
  intro he
  subst he
  exact absurd h (by decide)

/-- Core composition: on a YouTube-host URL, cleaning rebuilds the URL
from the parsed parts with the allow-list-filtered query, and parsing the
cleaned URL recovers exactly those parts. -/
theorem clean_parse_clean {l : List Char} {p : UrlParts}
    (hp : urlparseL l = some p) (hyt : isYTNetloc p.netloc = true) :
    cleanYoutubeUrlL l
      = urlunparseL ⟨p.scheme, p.netloc, p.path, p.params,
          urlencodeL (cleanedParams p.query), p.fragment⟩ ∧
    urlparseL (cleanYoutubeUrlL l)
      = some ⟨p.scheme, p.netloc, p.path, p.params,
          urlencodeL (cleanedParams p.query), p.fragment⟩ := by
  obtain ⟨s, hsplit, hpeq⟩ := urlparseL_some hp
  have hclean : cleanYoutubeUrlL l
      = urlunparseL ⟨p.scheme, p.netloc, p.path, p.params,
          urlencodeL (cleanedParams p.query), p.fragment⟩ := by
    unfold cleanYoutubeUrlL
    rw [hp]
    dsimp only
    rw [if_neg (by simp [hyt])]
  refine ⟨hclean, ?_⟩
  obtain ⟨hsch, hnd, hbr, hpathh, hpathq, hqh, hshape⟩ := urlsplitL_inv hsplit
  obtain ⟨htrn1, htrn2, htrn3, htrn4, htrn5⟩ := urlsplitL_no_trn hsplit
  have hfields : p.scheme = s.scheme ∧ p.netloc = s.netloc
      ∧ p.path = (splitparamsL s.path).1 ∧ p.params = (splitparamsL s.path).2
      ∧ p.query = s.query ∧ p.fragment = s.fragment := by
    rw [hpeq]
    exact ⟨rfl, rfl, rfl, rfl, rfl, rfl⟩
  obtain ⟨hf1, hf2, hf3, hf4, hf5, hf6⟩ := hfields
  have hspL : splitparamsL s.path = (p.path, p.params) := by
    rw [hf3, hf4]
  have hjpmem : ∀ c ∈ joinParams p.path p.params, c ∈ s.path := by
    intro c hc
    rcases splitparams_prefix hspL with hpre | hpre
    · rw [hpre]; exact hc
    · rw [hpre]; exact List.mem_append.2 (Or.inl hc)
  have hnet' : p.netloc ≠ [] := isYT_nonempty hyt
  have hnets : s.netloc ≠ [] := hf2 ▸ hnet'
  have hjp_shape : joinParams p.path p.params = []
      ∨ ∃ w, joinParams p.path p.params = '/' :: w := by
    rcases hshape hnets with hsp0 | ⟨w, hspw⟩
    · rcases splitparams_prefix hspL with hpre | hpre
      · left; rw [← hpre, hsp0]
      · rw [hsp0] at hpre
        exact absurd hpre.symm (by simp)
    · rcases splitparams_prefix hspL with hpre | hpre
      · right; exact ⟨w, by rw [← hpre, hspw]⟩
      · cases hjx : joinParams p.path p.params with
        | nil => left; rfl
        | cons a t =>
          right
          have h2 := hpre
          rw [hjx, hspw] at h2
          injection h2 with h2a h2b
          exact ⟨t, by rw [← h2a]⟩
  have hcq := urlencodeL_chars (cleanedParams p.query)
  have hscheme' : p.scheme = []
      ∨ ((∃ c0 t, p.scheme = c0 :: t ∧ c0.isAlpha = true)
        ∧ (∀ c ∈ p.scheme, schemeChar c = true)
        ∧ lowerL p.scheme = p.scheme ∧ ':' ∉ p.scheme) := by
    rw [hf1]; exact hsch
  have hnd' : ∀ c ∈ p.netloc, netlocDelim c = false := by
    rw [hf2]; exact hnd
  have hbr' : bracketsBad p.netloc = false := by
    rw [hf2]; exact hbr
  have hjpq' : '?' ∉ joinParams p.path p.params :=
    fun hm => hpathq (hjpmem '?' hm)
  have hjph' : '#' ∉ joinParams p.path p.params :=
    fun hm => hpathh (hjpmem '#' hm)
  have hsp' : splitparamsL (joinParams p.path p.params) = (p.path, p.params) :=
    splitparams_join hspL
  have hqh' : '#' ∉ urlencodeL (cleanedParams p.query) :=
    fun hm => absurd rfl (hcq '#' hm).1
  have ht1 : ∀ c ∈ p.scheme, isTRN c = false := by rw [hf1]; exact htrn1
  have ht2 : ∀ c ∈ p.netloc, isTRN c = false := by rw [hf2]; exact htrn2
  have ht3 : ∀ c ∈ joinParams p.path p.params, isTRN c = false :=
    fun c hc => htrn3 c (hjpmem c hc)
  have ht4 : ∀ c ∈ urlencodeL (cleanedParams p.query), isTRN c = false :=
    fun c hc => (hcq c hc).2.2
  have ht5 : ∀ c ∈ p.fragment, isTRN c = false := by rw [hf6]; exact htrn5
  rw [hclean]
  exact urlparse_unparse hnet' hscheme' hnd' hbr' hjpq' hjph' hjp_shape
    hsp' hqh' ht1 ht2 ht3 ht4 ht5

/-- C10: URL canonicalization is total: the try/except around the
urllib calls means that whenever parsing fails (the only failing step,
modelled by `urlparseL` returning `none`, as on a netloc with an
unmatched bracket), `_clean_youtube_url` returns the input string
unchanged, so a malformed URL can never abort the run. In particular the
bracket URL below fails to parse and passes through unchanged. -/
theorem clean_url_total :
    (∀ u : String, urlparseL u.data = none → cleanYoutubeUrl u = u) ∧
    urlparseL ("https://[youtube.com/watch?v=ABC".data) = none ∧
    cleanYoutubeUrl "https://[youtube.com/watch?v=ABC"
      = "https://[youtube.com/watch?v=ABC" := by
  refine ⟨?_, by rfl, by rfl⟩
  intro u hp
  show String.mk (cleanYoutubeUrlL u.data) = u
  have h1 : cleanYoutubeUrlL u.data = u.data := by
    unfold cleanYoutubeUrlL
    rw [hp]
  rw [h1]

theorem clean_url_total_witness :
    urlparseL ("http://[bad".data) = none ∧
    cleanYoutubeUrl "http://[bad" = "http://[bad" :=
  ⟨by rfl, clean_url_total.1 "http://[bad" (by rfl)⟩

/-- C5: on a URL whose host is a YouTube host, `_clean_youtube_url`
keeps exactly the allow-listed query parameters `{v, list, t, index, pp}`
(the cleaned URL re-parses with scheme, netloc, path, params and fragment
unchanged, and its query decodes to exactly the allow-list-filtered
pairs, every surviving key being essential); on a URL whose host is not
a YouTube host, the URL is returned unchanged; and the concrete example
drops `start_radio` while retaining `v=ABC&list=XYZ` in order. -/
theorem clean_url_allowlist :
    (∀ (u : String) (p : UrlParts), urlparseL u.data = some p →
        isYTNetloc p.netloc = true →
        ∃ p', urlparseL (cleanYoutubeUrl u).data = some p'
          ∧ p'.scheme = p.scheme ∧ p'.netloc = p.netloc ∧ p'.path = p.path
          ∧ p'.params = p.params ∧ p'.fragment = p.fragment
          ∧ parseQsl p'.query = cleanedParams p.query
          ∧ (∀ kv ∈ parseQsl p'.query, isEssential kv.1 = true)) ∧
    (∀ (u : String) (p : UrlParts), urlparseL u.data = some p →
        isYTNetloc p.netloc = false → cleanYoutubeUrl u = u) ∧
    cleanYoutubeUrl "https://www.youtube.com/watch?v=ABC&list=XYZ&start_radio=1"
      = "https://www.youtube.com/watch?v=ABC&list=XYZ" := by
  refine ⟨?_, ?_, by rfl⟩
  · intro u p hp hyt
    obtain ⟨hclean, hparse⟩ := clean_parse_clean hp hyt
    refine ⟨⟨p.scheme, p.netloc, p.path, p.params,
        urlencodeL (cleanedParams p.query), p.fragment⟩,
        hparse, rfl, rfl, rfl, rfl, rfl, ?_, ?_⟩
    · show parseQsl (urlencodeL (cleanedParams p.query)) = cleanedParams p.query
      exact (cleanedParams_idem p.query).1
    · show ∀ kv ∈ parseQsl (urlencodeL (cleanedParams p.query)),
          isEssential kv.1 = true
      rw [(cleanedParams_idem p.query).1]
      exact cleanedParams_essential p.query
  · intro u p hp hyt
    show String.mk (cleanYoutubeUrlL u.data) = u
    have h1 : cleanYoutubeUrlL u.data = u.data := by
      unfold cleanYoutubeUrlL
      rw [hp]
      dsimp only
      rw [if_pos (by simp [hyt])]
    rw [h1]

theorem clean_url_allowlist_witness :
    ∃ p', urlparseL
        (cleanYoutubeUrl "https://www.youtube.com/watch?v=ABC&start_radio=1").data
        = some p'
      ∧ p'.scheme = "https".data ∧ p'.netloc = "www.youtube.com".data
      ∧ p'.path = "/watch".data ∧ p'.params = [] ∧ p'.fragment = []
      ∧ parseQsl p'.query = [("v".data, "ABC".data)]
      ∧ (∀ kv ∈ parseQsl p'.query, isEssential kv.1 = true) := by
  obtain ⟨p', h1, h2, h3, h4, h5, h6, h7, h8⟩ :=
    clean_url_allowlist.1 "https://www.youtube.com/watch?v=ABC&start_radio=1"
      ⟨"https".data, "www.youtube.com".data, "/watch".data, [],
        "v=ABC&start_radio=1".data, []⟩
      (by rfl) (by rfl)
  exact ⟨p', h1, h2, h3, h4, h5, h6, by rw [h7]; rfl, h8⟩

theorem cleanYoutubeUrlL_idem (l : List Char) :
    cleanYoutubeUrlL (cleanYoutubeUrlL l) = cleanYoutubeUrlL l := by
  cases hp : urlparseL l with
  | none =>
    have h1 : cleanYoutubeUrlL l = l := by
      unfold cleanYoutubeUrlL
      rw [hp]
    rw [h1]
    exact h1
  | some p =>
    by_cases hyt : isYTNetloc p.netloc = true
    · obtain ⟨hclean, hparse⟩ := clean_parse_clean hp hyt
      have h2 := (clean_parse_clean hparse hyt).1
      rw [h2, hclean]
      show urlunparseL ⟨p.scheme, p.netloc, p.path, p.params,
          urlencodeL (cleanedParams (urlencodeL (cleanedParams p.query))),
          p.fragment⟩
        = urlunparseL ⟨p.scheme, p.netloc, p.path, p.params,
          urlencodeL (cleanedParams p.query), p.fragment⟩
      rw [(cleanedParams_idem p.query).2]
    · have h1 : cleanYoutubeUrlL l = l := by
        unfold cleanYoutubeUrlL
        rw [hp]
        dsimp only
        rw [if_pos (by simp [hyt])]
      rw [h1]
      exact h1

/-- C6: URL canonicalization is idempotent: for every input string,
applying `_clean_youtube_url` twice gives the same result as applying it
once. -/
theorem clean_url_idempotent (u : String) :
    cleanYoutubeUrl (cleanYoutubeUrl u) = cleanYoutubeUrl u := by
  show String.mk (cleanYoutubeUrlL (cleanYoutubeUrlL u.data))
      = String.mk (cleanYoutubeUrlL u.data)
  rw [cleanYoutubeUrlL_idem]

/-! # The download run (`download`, lines 650-929)

The run is modelled end to end over an `Env` of external-call results:
URL cleaning, primary credential resolution, optional format analysis,
selector choice, primary transfer, the keyword-gated escalated retry,
and the `finally` cleanup of the tracked temp cookie file. -/

/-- Observable outcome of one `download` run. -/
structure DownloadResult where
  success : Bool
  attempts : Nat
  sel1 : String
  sel2 : Option String
  analysisProbed : Bool
  source2 : Option CookieSource
  created : List String
  deleted : List String
  deriving Repr

/-- The `finally` block: unlink the tracked `_temp_cookie_file` if set. -/
def deleteTemp (st : RunState) : List String :=
  match st.tempCookie with
  | some f => [f]
  | none => []

/-- The credential/availability keywords of line 851. -/
def kwList : List String :=
  ["cookies", "login", "sign in", "private", "unavailable"]

/-- `any(keyword in error_str.lower() for keyword in [...])`. -/
def kwMatch (msg : String) : Bool :=
  kwList.any fun kw => containsSub kw.data (lowerL msg.data)

/-- `'list=' in url or 'playlist' in url.lower()` (line 688), applied to
the cleaned URL. -/
def skipAnalysis (url : List Char) : Bool :=
  containsSub "list=".data url || containsSub "playlist".data (lowerL url)

/-- Model of `download`: clean the URL, resolve credentials, probe formats
unless the URL looks like a playlist, choose the selector, run the primary
transfer, escalate exactly once on a keyword-matching `DownloadError`, and
in all cases delete the currently tracked temp cookie file at the end. -/
def runDownload (cfg : CookieSettings) (env : Env) (url : String) :
    DownloadResult :=
  let u := cleanYoutubeUrlL url.data
  let b1 := getBaseOptions cfg false env initState
  let skip := skipAnalysis u
  let best : Option String :=
    if skip then none
    else
      match env.probeResult with
      | none => none
      | some formats => selectBestFormat formats
  let sel1 := best.getD fallbackSelector
  match env.transfer1 with
  | .ok =>
      { success := true, attempts := 1, sel1 := sel1, sel2 := none,
        analysisProbed := !skip, source2 := none,
        created := b1.st.created, deleted := deleteTemp b1.st }
  | .exn _ =>
      { success := false, attempts := 1, sel1 := sel1, sel2 := none,
        analysisProbed := !skip, source2 := none,
        created := b1.st.created, deleted := deleteTemp b1.st }
  | .dlError msg =>
      if kwMatch msg then
        let b2 := getBaseOptions cfg true env b1.st
        { success := match env.transfer2 with | .ok => true | _ => false,
          attempts := 2, sel1 := sel1,
          sel2 := some escalatedSelector, analysisProbed := !skip,
          source2 := some b2.source,
          created := b2.st.created, deleted := deleteTemp b2.st }
      else
        { success := false, attempts := 1, sel1 := sel1, sel2 := none,
          analysisProbed := !skip, source2 := none,
          created := b1.st.created, deleted := deleteTemp b1.st }

/-- A Firefox browser-cookie policy (advanced extraction is the primary
path for Firefox). -/
def cfgFx : CookieSettings := ⟨true, none, "firefox"⟩

/-- An environment where both extraction calls produce a temp cookie file,
the primary transfer fails with a credential-keyword error, and the
escalated transfer succeeds. -/
def envEsc : Env :=
  ⟨fun n => if n = 0 then some "/tmp/cookieA" else some "/tmp/cookieB",
    none, .dlError "Sign in to confirm you are not a bot", .ok⟩

/-- C1: the transfer is attempted at most twice; a second attempt happens
exactly when the primary transfer fails with a `DownloadError` whose
message matches one of the keywords cookies/login/sign in/private/
unavailable case-insensitively; the second attempt uses the broadened
selector and re-resolves credentials with `use_fallback_cookies=True`;
and the run succeeds exactly when the primary transfer succeeds or the
keyword-triggered escalated transfer succeeds (so any other failure, or a
second failure, ends the run as failed with no further retry). -/
theorem download_retry_policy (cfg : CookieSettings) (env : Env)
    (url : String) :
    (runDownload cfg env url).attempts ≤ 2
    ∧ ((runDownload cfg env url).attempts = 2
        ↔ ∃ m, env.transfer1 = .dlError m ∧ kwMatch m = true)
    ∧ ((runDownload cfg env url).sel2
        = if (runDownload cfg env url).attempts = 2
          then some escalatedSelector else none)
    ∧ ((runDownload cfg env url).source2
        = if (runDownload cfg env url).attempts = 2
          then some (getBaseOptions cfg true env
              (getBaseOptions cfg false env initState).st).source
          else none)
    ∧ ((runDownload cfg env url).success = true
        ↔ env.transfer1 = .ok
          ∨ ∃ m, env.transfer1 = .dlError m ∧ kwMatch m = true
              ∧ env.transfer2 = .ok) := by
  cases ht1 : env.transfer1 with
  | ok =>
    refine ⟨?_, ?_, ?_, ?_, ?_⟩ <;>
      simp [runDownload, ht1]
  | exn m =>
    refine ⟨?_, ?_, ?_, ?_, ?_⟩ <;>
      simp [runDownload, ht1]
  | dlError m =>
    by_cases hkw : kwMatch m = true
    · refine ⟨?_, ?_, ?_, ?_, ?_⟩
      · simp [runDownload, ht1, hkw]
      · constructor
        · intro _
          exact ⟨m, rfl, hkw⟩
        · intro _
          simp [runDownload, ht1, hkw]
      · simp [runDownload, ht1, hkw]
      · simp [runDownload, ht1, hkw]
      · constructor
        · intro hs
          cases ht2 : env.transfer2 with
          | ok => exact Or.inr ⟨m, rfl, hkw, rfl⟩
          | dlError m2 =>
            exfalso
            simp [runDownload, ht1, hkw, ht2] at hs
          | exn m2 =>
            exfalso
            simp [runDownload, ht1, hkw, ht2] at hs
        · rintro (h0 | ⟨m2, hm2, hk2, h2⟩)
          · exact absurd h0 (by simp)
          · simp [runDownload, ht1, hkw, h2]
    · refine ⟨?_, ?_, ?_, ?_, ?_⟩
      · simp [runDownload, ht1, hkw]
      · constructor
        · intro h1
          exfalso
          simp [runDownload, ht1, hkw] at h1
        · rintro ⟨m2, hm2, hk2⟩
          injection hm2 with he
          subst he
          exact absurd hk2 hkw
      · simp [runDownload, ht1, hkw]
      · simp [runDownload, ht1, hkw]
      · constructor
        · intro hs
          exfalso
          simp [runDownload, ht1, hkw] at hs
        · rintro (h0 | ⟨m2, hm2, hk2, h2⟩)
          · exact absurd h0 (by simp)
          · injection hm2 with he
            subst he
            exact absurd hk2 hkw

theorem download_retry_policy_witness :
    (envEsc.transfer1 = .dlError "Sign in to confirm you are not a bot"
      ∧ kwMatch "Sign in to confirm you are not a bot" = true)
    ∧ (runDownload cfgFx envEsc "https://youtu.be/ABC").attempts = 2 := by
  refine ⟨⟨rfl, by decide⟩, ?_⟩
  exact (download_retry_policy cfgFx envEsc "https://youtu.be/ABC").2.1.mpr
    ⟨"Sign in to confirm you are not a bot", rfl, by decide⟩

/-- C7 counterexample: on a Firefox browser-cookie run whose primary
transfer fails with a credential-keyword error and whose escalated
transfer succeeds, two owned temp cookie files are created, the slot
tracking them is overwritten by the second (line 271 stores without
deleting the previous file), and the `finally` block deletes only the
second: the first created temp cookie file is never deleted, so owned
temporary credential files are NOT all deleted by the end of the run. -/
theorem temp_cookie_leak :
    (runDownload cfgFx envEsc "https://youtu.be/ABC").created
        = ["/tmp/cookieA", "/tmp/cookieB"]
    ∧ (runDownload cfgFx envEsc "https://youtu.be/ABC").deleted
        = ["/tmp/cookieB"]
    ∧ "/tmp/cookieA" ∈ (runDownload cfgFx envEsc "https://youtu.be/ABC").created
    ∧ "/tmp/cookieA" ∉ (runDownload cfgFx envEsc "https://youtu.be/ABC").deleted
    := by
  refine ⟨by decide, by decide, by decide, by decide⟩

/-- C8: when the cleaned URL is recognized as a playlist URL (it contains
`list=`, or `playlist` case-insensitively), the format-analysis probe is
not issued and the primary transfer uses the generic ordered fallback
selector expression. -/
theorem playlist_skips_probe (cfg : CookieSettings) (env : Env)
    (url : String)
    (h : skipAnalysis (cleanYoutubeUrlL url.data) = true) :
    (runDownload cfg env url).analysisProbed = false
    ∧ (runDownload cfg env url).sel1 = fallbackSelector := by
  cases ht1 : env.transfer1 with
  | ok => simp [runDownload, ht1, h]
  | exn m => simp [runDownload, ht1, h]
  | dlError m =>
    by_cases hkw : kwMatch m = true
    · simp [runDownload, ht1, h, hkw]
    · simp [runDownload, ht1, h, hkw]

theorem playlist_skips_probe_witness :
    skipAnalysis
        (cleanYoutubeUrlL "https://www.youtube.com/playlist?list=PL123".data)
        = true
    ∧ ((runDownload ⟨false, none, "chrome"⟩ envNull
          "https://www.youtube.com/playlist?list=PL123").analysisProbed = false
        ∧ (runDownload ⟨false, none, "chrome"⟩ envNull
            "https://www.youtube.com/playlist?list=PL123").sel1
          = fallbackSelector) :=
  ⟨by decide,
    playlist_skips_probe ⟨false, none, "chrome"⟩ envNull
      "https://www.youtube.com/playlist?list=PL123" (by decide)⟩

end AudioDL
